import Mathlib

/-!
Verification development for the resume-screening pipeline
(`src/utils/scoring.py` and `src/utils/preprocessing.py`).

Shallow embedding conventions:
* Python numbers are modelled as exact rationals (`ℚ`).  `round(x, 2)` is
  modelled by `round2`, round-half-to-even at two decimals, as Python's
  built-in `round` does.
* A pandas `DataFrame` of candidates is a `List Candidate`; a missing /
  `NaN` cell is `none`.  `pd.to_numeric(..., errors='coerce')` is modelled
  at the pandas boundary: the `experience_years` field already carries the
  coerced value (`none` for values that do not coerce to a number).
* The Groq LLM call is an external collaborator: its response text (or the
  parsed value of that text) enters each model function as an argument;
  `none` stands for an exception raised by the call (caught by the
  surrounding `try`/`except` in the source).
* `json.loads` is the Python json library; it enters as a
  `String → Option _` argument (`none` = `JSONDecodeError`).
* Python `re` is embedded directly for the two `mask_pii` patterns
  (a leftmost, non-overlapping `re.sub` scanner with backtracking matchers
  for `\S+@\S+` and `\+?\d[\d -]{8,12}\d`), and the TF-IDF scorer of
  sklearn is embedded over `ℝ` (exact arithmetic in place of IEEE floats).
-/

namespace AIResumeScreener

/-! ## Python `round(x, 2)`: round half to even, at two decimals -/

/-- Round a rational to the nearest integer, ties to even (Python `round`). -/
def pyRoundInt (q : ℚ) : ℤ :=
  if q - (⌊q⌋ : ℚ) < 1/2 then ⌊q⌋
  else if 1/2 < q - (⌊q⌋ : ℚ) then ⌊q⌋ + 1
  else if ⌊q⌋ % 2 = 0 then ⌊q⌋ else ⌊q⌋ + 1

/-- Python `round(q, 2)`. -/
def round2 (q : ℚ) : ℚ := (pyRoundInt (q * 100) : ℚ) / 100

/-! ## Data model (`src/utils/scoring.py`) -/

/-- One row of the candidate DataFrame; only the columns that
`auto_pre_screen_candidates` reads are listed.  `experience_years` holds
the value after `pd.to_numeric(..., errors='coerce')` semantics: `none`
for `NaN` / a value that does not coerce to a number. -/
structure Candidate where
  name : Option String
  experience_years : Option ℚ
  tech_stack : Option String
deriving DecidableEq

/-- The requirement record extracted from a job description
(`extract_jd_requirements`); fields are the values after the
`jd_requirements.get(...)` defaulting in `auto_pre_screen_candidates`
(0 and [] when absent). -/
structure JdRequirements where
  minimum_experience_years : ℚ
  required_technical_skills : List String
deriving DecidableEq

/-- One element of the JSON array returned by the ranking LLM call in
`match_candidates_with_jd`.  `none` models an absent key (the code reads
both fields with `.get(key, default)`).  The remaining JSON fields
(email, strengths, gaps, recommendation, interview_priority) are carried
through unchanged by the code and play no role in scoring. -/
structure RankResult where
  name : Option String
  match_percentage : Option ℚ
deriving DecidableEq

/-- One element of the list returned by `match_candidates_with_jd` after
the TF-IDF post-processing loop added `semantic_score` and `final_score`. -/
structure ScoredResult where
  name : Option String
  match_percentage : Option ℚ
  semantic_score : ℚ
  final_score : ℚ
deriving DecidableEq

/-! ## Pre-screening (`auto_pre_screen_candidates`, scoring.py lines 21-75) -/

/-- Python substring test `needle in hay`. -/
def pyIn (needle hay : String) : Bool := decide (needle.data <:+: hay.data)

/-- Python `str.lower()` (ASCII model), over the underlying characters. -/
def pyLower (s : String) : String := ⟨s.data.map Char.toLower⟩

/-- The body of the `for skill in required_skills` loop in
`has_required_skills` (scoring.py lines 51-64): direct case-insensitive
substring match, else the hard-coded synonym variations. -/
def skillMatches (tech_stack_lower : String) (skill : String) : Bool :=
  let skill_lower := pyLower skill
  if pyIn skill_lower tech_stack_lower then true
  else if skill_lower = "scikit-learn" &&
      (pyIn "sklearn" tech_stack_lower || pyIn "scikit" tech_stack_lower) then true
  else if skill_lower = "tensorflow" && pyIn "tensor" tech_stack_lower then true
  else if skill_lower = "pytorch" && pyIn "torch" tech_stack_lower then true
  else if skill_lower = "numpy" && pyIn "np" tech_stack_lower then true
  else false

/-- `has_required_skills` (scoring.py lines 44-68): `none` is the
`pd.isna(tech_stack)` case.  The matched-skill count is accumulated
exactly as the Python loop does, and the candidate passes when the count
reaches `max(1, len(required_skills) * 0.3)`. -/
def has_required_skills (required_skills : List String) (tech_stack : Option String) : Bool :=
  match tech_stack with
  | none => false
  | some ts =>
    let tech_stack_lower := pyLower ts
    let matched_skills : Nat :=
      required_skills.foldl (fun n skill => if skillMatches tech_stack_lower skill then n + 1 else n) 0
    let threshold : ℚ := max 1 ((required_skills.length : ℚ) * (3/10))
    decide (threshold ≤ (matched_skills : ℚ))

/-- The experience filter stage (scoring.py lines 30-39): skipped unless
`min_exp > 0`; a `NaN` (non-coercible) experience value never satisfies
`>= min_exp`. -/
def experienceStage (min_exp : ℚ) (df : List Candidate) : List Candidate :=
  if 0 < min_exp then
    df.filter fun c =>
      match c.experience_years with
      | some q => decide (min_exp ≤ q)
      | none => false
  else df

/-- The required-skills filter stage (scoring.py lines 42-73): skipped when
the required-skills list is empty (falsy). -/
def skillStage (required_skills : List String) (df : List Candidate) : List Candidate :=
  if required_skills.isEmpty then df
  else df.filter fun c => has_required_skills required_skills c.tech_stack

/-- The informational summary line of the experience filter. -/
def experienceSummary (min_exp : ℚ) (before_count after_count : Nat) : String :=
  "✓ Experience Filter: " ++ toString min_exp ++ "+ years → " ++
    toString after_count ++ "/" ++ toString before_count ++ " candidates passed"

/-- The informational summary line of the skills filter. -/
def skillSummary (required_skills : List String) (before_count after_count : Nat) : String :=
  "✓ Technical Skills Filter: " ++ String.intercalate ", " (required_skills.take 3) ++
    (if required_skills.length > 3 then "..." else "") ++ " → " ++
    toString after_count ++ "/" ++ toString before_count ++ " candidates passed"

/-- `auto_pre_screen_candidates` (scoring.py lines 21-75).  `df = none` is
the `df is None` guard; an empty frame or a missing requirement record
returns the input unchanged. -/
def auto_pre_screen_candidates (df : Option (List Candidate))
    (jd_requirements : Option JdRequirements) :
    Option (List Candidate) × List String :=
  match df, jd_requirements with
  | none, _ => (none, [])
  | some d, none => (some d, [])
  | some d, some jd =>
    if d.isEmpty then (some d, []) else
    let min_exp := jd.minimum_experience_years
    let d1 := experienceStage min_exp d
    let s1 : List String :=
      if 0 < min_exp then [experienceSummary min_exp d.length d1.length] else []
    let required_skills := jd.required_technical_skills
    let d2 := skillStage required_skills d1
    let s2 : List String :=
      if required_skills.isEmpty then []
      else [skillSummary required_skills d1.length d2.length]
    (some d2, s1 ++ s2)

/-! ## Ranking and score blending (`match_candidates_with_jd`,
scoring.py lines 77-160) -/

/-- The body of the `for result in results` loop (scoring.py lines
141-153): `candidate_name = result.get('name', '')`, `resume_text =
st.session_state.resume_texts.get(candidate_name, '')`, then either the
blended score or the LLM-only fallback. -/
def scoreResult (job_description : String) (resume_texts : String → String)
    (semantic : String → String → ℚ) (result : RankResult) : ScoredResult :=
  if resume_texts (result.name.getD "") ≠ "" then
    { name := result.name
      match_percentage := result.match_percentage
      semantic_score := semantic (resume_texts (result.name.getD "")) job_description
      final_score := round2 ((result.match_percentage.getD 0) * (7/10) +
        (semantic (resume_texts (result.name.getD "")) job_description) * (3/10)) }
  else
    { name := result.name
      match_percentage := result.match_percentage
      semantic_score := 0
      final_score := result.match_percentage.getD 0 }

/-- `match_candidates_with_jd` after the LLM boundary.
`llm_results` is the outcome of the ranking call plus the
first-`[`-to-last-`]` JSON extraction: `none` models a raised exception
or `response.find('[') == -1` (both return `[]`); `some results` is the
parsed JSON array.  `resume_texts` is `st.session_state.resume_texts`
(`.get(name, '')` modelled by a total function defaulting to `""`), and
`semantic` is `calculate_semantic_score` (kept as a parameter: in the
source it is float-valued sklearn code, embedded separately below). -/
def match_candidates_with_jd (candidates_df : List Candidate) (job_description : String)
    (llm_results : Option (List RankResult))
    (resume_texts : String → String) (semantic : String → String → ℚ) : List ScoredResult :=
  if candidates_df.isEmpty then []
  else
    match llm_results with
    | none => []
    | some results => results.map (scoreResult job_description resume_texts semantic)

/-! ## JSON extraction from an LLM response
(`parse_resume_with_groq` / `extract_jd_requirements`, preprocessing.py) -/

/-- Python `text.find(c)`: index of the first occurrence (`none` = -1). -/
def pyFind (c : Char) : List Char → Option Nat
  | [] => none
  | x :: xs => if x = c then some 0 else (pyFind c xs).map (· + 1)

/-- Python `text.rfind(c)`: index of the last occurrence (`none` = -1). -/
def pyRfind (c : Char) (cs : List Char) : Option Nat :=
  (pyFind c cs.reverse).map (fun j => cs.length - 1 - j)

/-- The extraction idiom shared by `parse_resume_with_groq`
(preprocessing.py lines 74-77) and `extract_jd_requirements` (lines
133-136): slice the response from the first `{` to the last `}`;
`json_start != -1 and json_end > json_start` guards the slice. -/
def extract_braced_list (cs : List Char) : Option (List Char) :=
  match pyFind '{' cs with
  | none => none
  | some json_start =>
    let json_end := match pyRfind '}' cs with
      | none => 0
      | some j => j + 1
    if json_start < json_end then some ((cs.drop json_start).take (json_end - json_start))
    else none

/-- String-level wrapper for `extract_braced_list`. -/
def extract_braced (s : String) : Option String :=
  (extract_braced_list s.data).map fun l => ⟨l⟩

/-! ## Resume parsing and contact-field reconciliation
(`parse_resume_with_groq`, preprocessing.py lines 16-100) -/

/-- The contact fields of the JSON record returned by the resume-parsing
LLM call; `none` models an absent key or JSON `null`.  The other schema
fields (name, experience_years, tech_stack, ...) pass through the
reconciliation untouched and are bundled opaquely in `rest`. -/
structure LlmResume where
  email : Option String
  phone : Option String
  rest : String
deriving DecidableEq

/-- The record returned by `parse_resume_with_groq`. -/
structure ParsedResume where
  email : Option String
  phone : Option String
  rest : String
  filename : String
  submission_date : String
deriving DecidableEq

/-- Python truthiness of an optional string (`if email_extracted:`):
`None` and `""` are falsy. -/
def optTruthy (o : Option String) : Bool :=
  match o with
  | none => false
  | some s => s ≠ ""

/-- The guard `not parsed_data.get(k) or parsed_data.get(k) == 'null'`
(preprocessing.py lines 88 and 90). -/
def falsyOrNullStr (o : Option String) : Bool :=
  match o with
  | none => true
  | some s => s = "" || s = "null"

/-- The contact-field reconciliation of `parse_resume_with_groq`
(preprocessing.py lines 80-91), applied to one field.  With masking
enabled, the regex-extracted value is installed only when it is truthy;
with masking disabled, the regex value fills in only when the model's
field is falsy or the string `"null"` (and `some ""` degrades to `none`,
from `email_extracted if email_extracted else None`). -/
def reconcileField (mask_pii_enabled : Bool) (extracted llm_value : Option String) :
    Option String :=
  if mask_pii_enabled then
    if optTruthy extracted then extracted else llm_value
  else
    if falsyOrNullStr llm_value then
      (if optTruthy extracted then extracted else none)
    else llm_value

/-- `parse_resume_with_groq` from the LLM response on
(preprocessing.py lines 62-100).  `email_extracted` / `phone_extracted`
are the first matches of the contact regexes over the original,
unredacted `resume_text` (computed by Python `re.findall` before
masking; `none` = no match).  `response = none` models a raised
exception (`except` returns `None`); `parse_json` is `json.loads`
(`none` = `JSONDecodeError`, also caught). -/
def parse_resume_with_groq (email_extracted phone_extracted : Option String)
    (mask_pii_enabled : Bool) (filename : String)
    (upload_date : Option String) (now : String)
    (response : Option String) (parse_json : String → Option LlmResume) :
    Option ParsedResume :=
  match response with
  | none => none
  | some resp =>
    match extract_braced resp with
    | none => none
    | some jtext =>
      match parse_json jtext with
      | none => none
      | some parsed_data =>
        some { email := reconcileField mask_pii_enabled email_extracted parsed_data.email
               phone := reconcileField mask_pii_enabled phone_extracted parsed_data.phone
               rest := parsed_data.rest
               filename := filename
               submission_date := upload_date.getD now }

/-- `extract_jd_requirements` from the LLM response on
(preprocessing.py lines 121-143): same brace-delimited extraction, the
parsed record is returned as-is, every failure yields `None`. -/
def extract_jd_requirements (response : Option String)
    (parse_json : String → Option JdRequirements) : Option JdRequirements :=
  match response with
  | none => none
  | some resp =>
    match extract_braced resp with
    | none => none
    | some jtext => parse_json jtext

/-! ## TF-IDF lexical similarity (`calculate_semantic_score`,
scoring.py lines 11-19)

`TfidfVectorizer(max_features=500).fit_transform([resume_text, jd_text])`
with sklearn defaults: lowercase, token pattern `\b\w\w+\b` (maximal runs
of at least two word characters), smooth idf `ln((1+n)/(1+df)) + 1` with
`n = 2` documents, vocabulary sorted alphabetically and capped at the 500
terms of highest total count (ties alphabetical, numpy stable argsort),
then cosine similarity of the two rows.  The row-wise l2 normalisation of
the vectorizer cancels inside the cosine and is folded into `cosineSim`,
which yields 0 for a zero vector exactly as
`sklearn.metrics.pairwise.cosine_similarity` does.  Arithmetic is exact
over `ℝ` in place of IEEE floats. -/

/-- A `\w` character of the sklearn token pattern (ASCII model). -/
def skWordChar (c : Char) : Bool := c.isAlphanum || c = '_'

/-- sklearn tokenisation: lowercase, maximal word-character runs of
length at least 2. -/
def sk_tokenize (s : String) : List String :=
  (((pyLower s).data.splitOnP fun c => !skWordChar c).filter
    fun t => 2 ≤ t.length).map fun l => ⟨l⟩

/-- Boolean alphabetical order on terms. -/
def sk_le (a b : String) : Bool := decide (a ≤ b)

/-- The sorted, duplicate-free term list of the two-document corpus. -/
def sk_terms (ta tb : List String) : List String :=
  ((ta ++ tb).mergeSort sk_le).dedup

/-- Number of occurrences of term `t` in a tokenised document. -/
def sk_count (t : String) (toks : List String) : Nat := toks.count t

/-- The `max_features` ranking: higher total count first, ties
alphabetical (numpy `argsort(-tfs)` is stable over the alphabetical
vocabulary). -/
def sk_rank_le (ta tb : List String) (a b : String) : Bool :=
  decide (sk_count b (ta ++ tb) < sk_count a (ta ++ tb)) ||
    (decide (sk_count a (ta ++ tb) = sk_count b (ta ++ tb)) && sk_le a b)

/-- The vocabulary: all terms when at most 500, else the 500 of highest
total count, kept in alphabetical order. -/
def sk_vocab (ta tb : List String) : List String :=
  let terms := sk_terms ta tb
  if terms.length ≤ 500 then terms
  else terms.filter fun t => t ∈ (terms.mergeSort (sk_rank_le ta tb)).take 500

/-- Document frequency of a term over the two-document corpus. -/
def sk_df (ta tb : List String) (t : String) : Nat :=
  (if t ∈ ta then 1 else 0) + (if t ∈ tb then 1 else 0)

/-- Smooth idf with `n = 2` documents: `ln(3 / (1 + df)) + 1`. -/
noncomputable def sk_idf (ta tb : List String) (t : String) : ℝ :=
  Real.log (3 / (1 + (sk_df ta tb t : ℝ))) + 1

/-- The (unnormalised) tf-idf row of document `d` over the pair
vocabulary. -/
noncomputable def sk_vec (ta tb : List String) (d : List String) : List ℝ :=
  (sk_vocab ta tb).map fun t => (sk_count t d : ℝ) * sk_idf ta tb t

/-- Dot product of two rows. -/
noncomputable def dotR (u v : List ℝ) : ℝ := (List.zipWith (· * ·) u v).sum

/-- Cosine similarity; denominators of 0 yield 0 (division by zero),
matching sklearn on zero vectors. -/
noncomputable def cosineSim (u v : List ℝ) : ℝ :=
  dotR u v / (Real.sqrt (dotR u u) * Real.sqrt (dotR v v))

/-- Python `round` over `ℝ`: nearest integer, ties to even. -/
noncomputable def pyRoundIntR (x : ℝ) : ℤ :=
  if x - (⌊x⌋ : ℝ) < 1/2 then ⌊x⌋
  else if 1/2 < x - (⌊x⌋ : ℝ) then ⌊x⌋ + 1
  else if ⌊x⌋ % 2 = 0 then ⌊x⌋ else ⌊x⌋ + 1

/-- Python `round(x, 2)` over `ℝ`. -/
noncomputable def round2R (x : ℝ) : ℝ := (pyRoundIntR (x * 100) : ℝ) / 100

/-- `calculate_semantic_score` (scoring.py lines 11-19).  An empty
vocabulary makes `fit_transform` raise (`ValueError: empty vocabulary`),
caught by the bare `except` which returns 0; otherwise the cosine of the
two tf-idf rows is scaled to a percentage and rounded to 2 decimals. -/
noncomputable def calculate_semantic_score (resume_text jd_text : String) : ℝ :=
  let ta := sk_tokenize resume_text
  let tb := sk_tokenize jd_text
  if sk_terms ta tb = [] then 0
  else round2R (cosineSim (sk_vec ta tb ta) (sk_vec ta tb tb) * 100)

/-! ## PII masking (`mask_pii`, preprocessing.py lines 10-14)

`re.sub` applies its pattern at each position left to right, replaces the
leftmost match, and resumes immediately after the replaced span.  That
scanner is `reSub`; the two patterns are embedded as anchored matchers
returning the number of characters a match starting at the current
position consumes.

For `\S+@\S+` anchored at a position, the greedy `\S+`s force the match
(when one exists) to cover exactly the maximal `\S` run starting there,
and a match exists precisely when that run contains an `@` that is
neither its first nor its last character (at least one `\S` is needed on
each side of the `@`; backtracking of the first `\S+` finds such an `@`
and the final `\S+` then extends to the end of the run).

For `\+?\d[\d -]{8,12}\d` anchored at a position, an optional leading `+`
(a failed attempt with `+` consumed cannot be rescued by matching `\d`
against `+`), then a digit, then the greedy counted class tries middle
lengths 12 down to 8, each requiring a final digit right after. -/

/-- Python `\s` (ASCII model). -/
def isPySpace (c : Char) : Bool :=
  c = ' ' || c = '\t' || c = '\n' || c = '\r' || c = '\x0b' || c = '\x0c'

/-- Anchored matcher for `\S+@\S+`: consumed length of the match starting
at the head of `cs`, if any. -/
def emailMatch (cs : List Char) : Option Nat :=
  let run := cs.takeWhile fun c => !isPySpace c
  if '@' ∈ (run.drop 1).dropLast then some run.length else none

/-- The character class `[\d -]`. -/
def isPhoneClassChar (c : Char) : Bool := c.isDigit || c = '-' || c = ' '

/-- One backtracking attempt of `[\d -]{8,12}\d` with middle length `m`,
applied after the leading digit; `t` is the input following that digit. -/
def phoneTry (t : List Char) (m : Nat) : Option Nat :=
  if (t.take m).length = m && (t.take m).all isPhoneClassChar &&
      (match t.drop m with | e :: _ => e.isDigit | [] => false) then
    some (1 + m + 1)
  else none

/-- Anchored matcher for `\d[\d -]{8,12}\d`: greedy middle, lengths 12
down to 8. -/
def phoneCore : List Char → Option Nat
  | [] => none
  | d :: t => if d.isDigit then [12, 11, 10, 9, 8].findSome? (phoneTry t) else none

/-- Anchored matcher for `\+?\d[\d -]{8,12}\d`. -/
def phoneMatch (cs : List Char) : Option Nat :=
  match cs with
  | '+' :: t => (phoneCore t).map (· + 1)
  | _ => phoneCore cs

/-- The `re.sub` scanner: try the anchored matcher at each position left
to right; on a match emit the replacement and resume after the matched
span.  Fuel-indexed for structural recursion; `cs.length` fuel always
suffices because every step consumes at least one character. -/
def reSubAux (m : List Char → Option Nat) (rep : List Char) : Nat → List Char → List Char
  | _, [] => []
  | 0, cs => cs
  | fuel + 1, c :: rest =>
    match m (c :: rest) with
    | none => c :: reSubAux m rep fuel rest
    | some k => rep ++ reSubAux m rep fuel ((c :: rest).drop (max k 1))

/-- `re.sub(pattern, rep, cs)` for an anchored matcher `m`. -/
def reSub (m : List Char → Option Nat) (rep : List Char) (cs : List Char) : List Char :=
  reSubAux m rep cs.length cs

/-- The fixed email placeholder. -/
def emailRep : List Char := "[EMAIL_MASKED]".data

/-- The fixed phone placeholder. -/
def phoneRep : List Char := "[PHONE_MASKED]".data

/-- `mask_pii` (preprocessing.py lines 10-14): the email substitution,
then the phone substitution on its output. -/
def mask_pii (text : String) : String :=
  ⟨reSub phoneMatch phoneRep (reSub emailMatch emailRep text.data)⟩

/-- Token-level description of the email pass: each maximal
non-whitespace run with an interior `@` is replaced wholly, all other
characters are kept.  (Proved below to coincide with the scanner.) -/
def emailTokenAux : Nat → List Char → List Char
  | _, [] => []
  | 0, cs => cs
  | fuel + 1, c :: rest =>
    if isPySpace c then c :: emailTokenAux fuel rest
    else
      let run := (c :: rest).takeWhile fun x => !isPySpace x
      let rest2 := (c :: rest).dropWhile fun x => !isPySpace x
      (if '@' ∈ (run.drop 1).dropLast then emailRep else run) ++ emailTokenAux fuel rest2

/-- Wrapper for `emailTokenAux` with sufficient fuel. -/
def emailTokenMask (cs : List Char) : List Char := emailTokenAux cs.length cs

/-- Modelled from the claim wording (spec section 4.2): a token matching
`non-whitespace@non-whitespace` in full, i.e. with an interior `@`. -/
def specTokenIsEmail (t : List Char) : Bool := decide ('@' ∈ (t.drop 1).dropLast)

/-- Modelled from the claim wording (spec section 4.2): a token that is
an optional leading `+` followed by 9-13 digits with optional `-` or
space separators. -/
def specTokenIsPhone (t : List Char) : Bool :=
  let core := match t with
    | '+' :: r => r
    | r => r
  core ≠ [] && core.all (fun c => c.isDigit || c = '-' || c = ' ') &&
    decide (9 ≤ core.countP (fun c => c.isDigit)) &&
    decide (core.countP (fun c => c.isDigit) ≤ 13)

/-- Modelled from the claim wording of the PII redactor: replace exactly
the whole tokens matching the claimed email shape or the claimed phone
shape, altering nothing else. -/
def specMaskAux : Nat → List Char → List Char
  | _, [] => []
  | 0, cs => cs
  | fuel + 1, c :: rest =>
    if isPySpace c then c :: specMaskAux fuel rest
    else
      let run := (c :: rest).takeWhile fun x => !isPySpace x
      let rest2 := (c :: rest).dropWhile fun x => !isPySpace x
      (if specTokenIsEmail run then emailRep
       else if specTokenIsPhone run then phoneRep
       else run) ++ specMaskAux fuel rest2

/-- The claimed behaviour of `mask_pii`, as a whole-token replacement. -/
def spec_mask_pii (s : String) : String := ⟨specMaskAux s.data.length s.data⟩

/-- Every character the phone pattern `\+?\d[\d -]{8,12}\d` can consume:
the class `[\d -]` plus the optional leading `+`. -/
def isPhonePatChar (c : Char) : Bool := c.isDigit || c = '-' || c = ' ' || c = '+'

/-- A window `a '@' b` with non-whitespace `a` and `b` somewhere in the
text — exactly the situation in which the email pattern `\S+@\S+` has a
match (the `@` sits strictly inside a non-whitespace run). -/
def BadAt (cs : List Char) : Prop :=
  ∃ u a b v, cs = u ++ a :: '@' :: b :: v ∧ isPySpace a = false ∧ isPySpace b = false

/-- The exact shape of one phone-pattern match: an optional `+`, a
digit, 8-12 characters of the class `[\d -]`, and a final digit. -/
def phoneWord (pre : List Char) : Prop :=
  ∃ (p : List Char) (d : Char) (mid : List Char) (e : Char),
    pre = p ++ d :: mid ++ [e] ∧ (p = [] ∨ p = ['+']) ∧
    d.isDigit = true ∧ e.isDigit = true ∧ mid.all isPhoneClassChar = true ∧
    8 ≤ mid.length ∧ mid.length ≤ 12

/-! ## Rounding lemmas -/

theorem pyRoundInt_bounds (q : ℚ) : (⌊q⌋ : ℤ) ≤ pyRoundInt q ∧ pyRoundInt q ≤ ⌊q⌋ + 1 := by
  unfold pyRoundInt
  split_ifs <;> omega

theorem pyRoundInt_mono {p q : ℚ} (h : p ≤ q) : pyRoundInt p ≤ pyRoundInt q := by
  have hf : ⌊p⌋ ≤ ⌊q⌋ := Int.floor_le_floor h
  rcases eq_or_lt_of_le hf with heq | hlt
  · have hr : p - (⌊p⌋ : ℚ) ≤ q - (⌊q⌋ : ℚ) := by
      rw [← heq]; linarith
    unfold pyRoundInt
    rw [← heq]
    split_ifs <;> first | omega | linarith
  · have h1 := pyRoundInt_bounds p
    have h2 := pyRoundInt_bounds q
    omega

theorem pyRoundInt_intCast (n : ℤ) : pyRoundInt (n : ℚ) = n := by
  unfold pyRoundInt
  rw [Int.floor_intCast]
  norm_num

/-! ## Score blending: claims C1, C3, C7 -/

theorem scoreResult_name (jd : String) (texts : String → String)
    (sem : String → String → ℚ) (res : RankResult) :
    (scoreResult jd texts sem res).name = res.name := by
  unfold scoreResult
  split <;> rfl

theorem scoreResult_mp (jd : String) (texts : String → String)
    (sem : String → String → ℚ) (res : RankResult) :
    (scoreResult jd texts sem res).match_percentage = res.match_percentage := by
  unfold scoreResult
  split <;> rfl

theorem scoreResult_found (jd : String) (texts : String → String)
    (sem : String → String → ℚ) (res : RankResult)
    (h : texts (res.name.getD "") ≠ "") :
    scoreResult jd texts sem res =
      { name := res.name
        match_percentage := res.match_percentage
        semantic_score := sem (texts (res.name.getD "")) jd
        final_score := round2 ((res.match_percentage.getD 0) * (7/10) +
          (sem (texts (res.name.getD "")) jd) * (3/10)) } := by
  unfold scoreResult
  rw [if_pos h]

theorem scoreResult_missing (jd : String) (texts : String → String)
    (sem : String → String → ℚ) (res : RankResult)
    (h : texts (res.name.getD "") = "") :
    scoreResult jd texts sem res =
      { name := res.name
        match_percentage := res.match_percentage
        semantic_score := 0
        final_score := res.match_percentage.getD 0 } := by
  unfold scoreResult
  rw [if_neg]
  simp [h]

theorem mem_match_candidates (candidates_df : List Candidate) (jd : String)
    (llm_results : Option (List RankResult)) (texts : String → String)
    (sem : String → String → ℚ) (r : ScoredResult)
    (hr : r ∈ match_candidates_with_jd candidates_df jd llm_results texts sem) :
    ∃ res results, llm_results = some results ∧ res ∈ results ∧
      r = scoreResult jd texts sem res := by
  unfold match_candidates_with_jd at hr
  split at hr
  · exact absurd hr (List.not_mem_nil r)
  · cases llm_results with
    | none => exact absurd hr (List.not_mem_nil r)
    | some results =>
      rw [List.mem_map] at hr
      obtain ⟨res, hres, hq⟩ := hr
      exact ⟨res, results, rfl, hres, hq.symm⟩

/-- C1: every ranking result of `match_candidates_with_jd` whose
candidate name has stored resume text gets
`final_score = round(0.7 * match_percentage + 0.3 * semantic_score, 2)`
(with `match_percentage = 88`, `semantic_score = 50` this is 76.6), and
every result whose name has no stored resume text gets
`semantic_score = 0` and `final_score = match_percentage`. -/
theorem final_score_blend (candidates_df : List Candidate) (jd : String)
    (llm_results : Option (List RankResult)) (texts : String → String)
    (sem : String → String → ℚ) (r : ScoredResult)
    (hr : r ∈ match_candidates_with_jd candidates_df jd llm_results texts sem) :
    (texts (r.name.getD "") ≠ "" →
      r.semantic_score = sem (texts (r.name.getD "")) jd ∧
      r.final_score = round2 ((r.match_percentage.getD 0) * (7/10) + r.semantic_score * (3/10))) ∧
    (texts (r.name.getD "") = "" →
      r.semantic_score = 0 ∧ r.final_score = r.match_percentage.getD 0) ∧
    round2 ((88 : ℚ) * (7/10) + 50 * (3/10)) = 766/10 := by
  obtain ⟨res, results, hsome, hres, rfl⟩ :=
    mem_match_candidates candidates_df jd llm_results texts sem r hr
  rw [scoreResult_name]
  refine ⟨?_, ?_, ?_⟩
  · intro hne
    rw [scoreResult_found jd texts sem res hne]
    exact ⟨rfl, rfl⟩
  · intro heq
    rw [scoreResult_missing jd texts sem res heq]
    exact ⟨rfl, rfl⟩
  · unfold round2 pyRoundInt
    norm_num

/-- Witness for C1 at a concrete input: one candidate named A with
resume text stored, `match_percentage = 88`, lexical score 50. -/
theorem final_score_blend_witness :
    ((⟨some "A", some 88, 50, 766/10⟩ : ScoredResult) ∈
      match_candidates_with_jd [⟨some "A", some 5, some "Python"⟩] "jd"
        (some [⟨some "A", some 88⟩]) (fun _ => "resume text") (fun _ _ => 50)) ∧
    ((fun _ : String => "resume text") (((⟨some "A", some 88, 50, 766/10⟩ : ScoredResult).name).getD "") ≠ "") ∧
    ((⟨some "A", some 88, 50, 766/10⟩ : ScoredResult).semantic_score =
      (fun _ _ : String => (50 : ℚ))
        ((fun _ : String => "resume text") (((⟨some "A", some 88, 50, 766/10⟩ : ScoredResult).name).getD "")) "jd" ∧
     (⟨some "A", some 88, 50, 766/10⟩ : ScoredResult).final_score =
      round2 ((((⟨some "A", some 88, 50, 766/10⟩ : ScoredResult).match_percentage).getD 0) * (7/10) +
        ((⟨some "A", some 88, 50, 766/10⟩ : ScoredResult).semantic_score) * (3/10))) := by
  have hval : round2 ((88 : ℚ) * (7/10) + 50 * (3/10)) = 766/10 := by
    unfold round2 pyRoundInt
    norm_num
  have hne : (fun _ : String => "resume text") (((some "A" : Option String)).getD "") ≠ "" := by
    decide
  have hmem : (⟨some "A", some 88, 50, 766/10⟩ : ScoredResult) ∈
      match_candidates_with_jd [⟨some "A", some 5, some "Python"⟩] "jd"
        (some [⟨some "A", some 88⟩]) (fun _ => "resume text") (fun _ _ => 50) := by
    have h1 : match_candidates_with_jd [⟨some "A", some 5, some "Python"⟩] "jd"
        (some [⟨some "A", some 88⟩]) (fun _ => "resume text") (fun _ _ => 50) =
        [scoreResult "jd" (fun _ => "resume text") (fun _ _ => 50) ⟨some "A", some 88⟩] := by
      simp [match_candidates_with_jd]
    rw [h1, scoreResult_found _ _ _ _ hne, List.mem_singleton]
    show (⟨some "A", some 88, 50, 766/10⟩ : ScoredResult) =
      ⟨some "A", some 88, 50, round2 ((88 : ℚ) * (7/10) + 50 * (3/10))⟩
    rw [hval]
  exact ⟨hmem, hne,
    (final_score_blend [⟨some "A", some 5, some "Python"⟩] "jd"
      (some [⟨some "A", some 88⟩]) (fun _ => "resume text") (fun _ _ => 50)
      ⟨some "A", some 88, 50, 766/10⟩ hmem).1 hne⟩

/-- Counterexample to C3 as stated: with a fractional LLM score
`match_percentage = 5.008` and lexical score 5, the blend
`round(0.7 * 5.008 + 0.3 * 5, 2) = round(5.0056, 2) = 5.01` exceeds
`max(match_percentage, semantic_score) = 5.008`, so the final score
escapes the convex span of its two inputs even though
`semantic_score > 0`. -/
theorem final_score_outside_span :
    match_candidates_with_jd [⟨some "A", some 5, some "Python"⟩] "jd"
        (some [⟨some "A", some (626/125)⟩]) (fun _ => "resume text") (fun _ _ => 5) =
      [⟨some "A", some (626/125), 5, 501/100⟩] ∧
    (0 : ℚ) < 5 ∧
    max ((626 : ℚ)/125) 5 < 501/100 := by
  have hval : round2 ((626/125 : ℚ) * (7/10) + 5 * (3/10)) = 501/100 := by
    unfold round2 pyRoundInt
    norm_num
  refine ⟨?_, by norm_num, ?_⟩
  · have h1 : match_candidates_with_jd [⟨some "A", some 5, some "Python"⟩] "jd"
        (some [⟨some "A", some (626/125)⟩]) (fun _ => "resume text") (fun _ _ => 5) =
        [scoreResult "jd" (fun _ => "resume text") (fun _ _ => 5) ⟨some "A", some (626/125)⟩] := by
      simp [match_candidates_with_jd]
    rw [h1, scoreResult_found _ _ _ _ (by decide)]
    show ([⟨some "A", some (626/125), 5, round2 ((626/125 : ℚ) * (7/10) + 5 * (3/10))⟩] :
      List ScoredResult) = _
    rw [hval]
  · rw [max_eq_left (by norm_num : (5 : ℚ) ≤ 626/125)]
    norm_num

/-- C3 (amended): for every result of `match_candidates_with_jd` with
`semantic_score > 0`, provided both scores are integer multiples of 0.01
(semantic scores always are, being rounded to two decimals; LLM scores
are whenever the model returns at most two decimals, in particular the
integers the prompt requests), the final score stays in the convex span:
`min(match_percentage, semantic_score) ≤ final_score ≤
max(match_percentage, semantic_score)`. -/
theorem round2_blend_within_centi_span (a b : ℤ) :
    min ((a : ℚ) / 100) ((b : ℚ) / 100) ≤
        round2 ((a : ℚ) / 100 * (7/10) + (b : ℚ) / 100 * (3/10)) ∧
      round2 ((a : ℚ) / 100 * (7/10) + (b : ℚ) / 100 * (3/10)) ≤
        max ((a : ℚ) / 100) ((b : ℚ) / 100) := by
  have hminq : ((min a b : ℤ) : ℚ) = min ((a : ℚ)) ((b : ℚ)) := by
    exact_mod_cast Int.cast_min
  have hmaxq : ((max a b : ℤ) : ℚ) = max ((a : ℚ)) ((b : ℚ)) := by
    exact_mod_cast Int.cast_max
  have hlo : ((min a b : ℤ) : ℚ) ≤ ((a : ℚ) / 100 * (7/10) + (b : ℚ) / 100 * (3/10)) * 100 := by
    rw [hminq]
    have h1 := min_le_left ((a : ℚ)) ((b : ℚ))
    have h2 := min_le_right ((a : ℚ)) ((b : ℚ))
    linarith
  have hhi : ((a : ℚ) / 100 * (7/10) + (b : ℚ) / 100 * (3/10)) * 100 ≤ ((max a b : ℤ) : ℚ) := by
    rw [hmaxq]
    have h1 := le_max_left ((a : ℚ)) ((b : ℚ))
    have h2 := le_max_right ((a : ℚ)) ((b : ℚ))
    linarith
  have hlo2 := pyRoundInt_mono hlo
  have hhi2 := pyRoundInt_mono hhi
  rw [pyRoundInt_intCast] at hlo2 hhi2
  unfold round2
  constructor
  · have : min ((a : ℚ) / 100) ((b : ℚ) / 100) = ((min a b : ℤ) : ℚ) / 100 := by
      rw [hminq, min_div_div_right]
      norm_num
    rw [this]
    gcongr
  · have : max ((a : ℚ) / 100) ((b : ℚ) / 100) = ((max a b : ℤ) : ℚ) / 100 := by
      rw [hmaxq, max_div_div_right]
      norm_num
    rw [this]
    gcongr

/-- C3 (amended): for every result of `match_candidates_with_jd` with
`semantic_score > 0`, provided both scores are integer multiples of 0.01
(semantic scores always are, being rounded to two decimals; LLM scores
are whenever the model returns at most two decimals, in particular the
integers the prompt requests), the final score stays in the convex span:
`min(match_percentage, semantic_score) ≤ final_score ≤
max(match_percentage, semantic_score)`. -/
theorem final_score_within_span (candidates_df : List Candidate) (jd : String)
    (llm_results : Option (List RankResult)) (texts : String → String)
    (sem : String → String → ℚ) (r : ScoredResult)
    (hr : r ∈ match_candidates_with_jd candidates_df jd llm_results texts sem)
    (hpos : 0 < r.semantic_score)
    (ha : ∃ a : ℤ, r.match_percentage.getD 0 = (a : ℚ) / 100)
    (hb : ∃ b : ℤ, r.semantic_score = (b : ℚ) / 100) :
    min (r.match_percentage.getD 0) r.semantic_score ≤ r.final_score ∧
      r.final_score ≤ max (r.match_percentage.getD 0) r.semantic_score := by
  obtain ⟨res, results, hsome, hres, rfl⟩ :=
    mem_match_candidates candidates_df jd llm_results texts sem r hr
  obtain ⟨a, ha⟩ := ha
  obtain ⟨b, hb⟩ := hb
  by_cases hne : texts (res.name.getD "") ≠ ""
  · rw [scoreResult_found jd texts sem res hne] at hpos ha hb ⊢
    simp only at ha hb hpos ⊢
    rw [ha, hb]
    exact round2_blend_within_centi_span a b
  · rw [scoreResult_missing jd texts sem res (not_not.mp hne)] at hpos
    simp at hpos

/-- C7: `match_candidates_with_jd` returns the empty list when the
candidate frame is empty (the LLM boundary arguments are irrelevant: no
call is issued), and when the ranking response yields no parseable
JSON array; in the model both failure modes produce `[]`, never a
partial list, and totality of the embedding reflects that no exception
escapes (the source wraps the body in `try`/`except` returning `[]`). -/
theorem empty_pool_or_unparsed_gives_empty (df : List Candidate) (jd : String)
    (lr : Option (List RankResult)) (texts : String → String)
    (sem : String → String → ℚ) :
    match_candidates_with_jd [] jd lr texts sem = [] ∧
    match_candidates_with_jd df jd none texts sem = [] := by
  constructor
  · rfl
  · unfold match_candidates_with_jd
    split <;> rfl

/-! ## Pre-screening: claims C4, C5 -/

theorem foldl_count_eq_countP (p : String → Bool) :
    ∀ (l : List String) (n : Nat),
      l.foldl (fun n s => if p s then n + 1 else n) n = n + l.countP p := by
  intro l
  induction l with
  | nil => simp
  | cons a t ih =>
    intro n
    by_cases h : p a
    · simp [List.countP_cons, h, ih]
      omega
    · simp [List.countP_cons, h, ih]

theorem has_required_skills_iff (required_skills : List String) (ts : String) :
    has_required_skills required_skills (some ts) = true ↔
      max 1 ((required_skills.length : ℚ) * (3/10)) ≤
        (required_skills.countP (skillMatches (pyLower ts)) : ℚ) := by
  simp only [has_required_skills]
  simp only [foldl_count_eq_countP]
  simp

/-- C4: with a non-empty required-skills list, a candidate passes the
skill filter exactly when the number of required skills matching the
tech stack (case-insensitive substring, or one of the hard-coded
synonym variations) reaches `max(1, 0.3 * len(required_skills))`; a
`NaN` tech stack never passes; the filter is skipped entirely for an
empty required-skills list; with required skills
`[Python, AWS, Docker]` a tech stack of just `Python` passes and one
with none of the three fails. -/
theorem skill_filter_pass_iff (required_skills : List String) (ts : String)
    (df : List Candidate) :
    (has_required_skills required_skills (some ts) = true ↔
      max 1 ((required_skills.length : ℚ) * (3/10)) ≤
        (required_skills.countP (skillMatches (pyLower ts)) : ℚ)) ∧
    has_required_skills required_skills none = false ∧
    skillStage [] df = df ∧
    has_required_skills ["Python", "AWS", "Docker"] (some "Python") = true ∧
    has_required_skills ["Python", "AWS", "Docker"] (some "Java, C, SQL") = false := by
  refine ⟨has_required_skills_iff required_skills ts, rfl, rfl, ?_, ?_⟩
  · rw [has_required_skills_iff]
    have hc : (["Python", "AWS", "Docker"].countP (skillMatches (pyLower "Python"))) = 1 := rfl
    rw [hc]
    have hl : ((["Python", "AWS", "Docker"].length : ℚ)) = 3 := rfl
    rw [hl]
    exact max_le (by norm_num) (by norm_num)
  · rw [← Bool.not_eq_true, has_required_skills_iff]
    have hc : (["Python", "AWS", "Docker"].countP (skillMatches (pyLower "Java, C, SQL"))) = 0 := rfl
    rw [hc]
    intro h
    have h1 := le_trans (le_max_left 1 ((["Python", "AWS", "Docker"].length : ℚ) * (3/10))) h
    norm_num at h1

/-- C5: in `auto_pre_screen_candidates`, with a positive experience
threshold exactly the rows whose `experience_years` coerced to a number
at least the threshold survive the experience stage (non-numeric rows
are dropped); with a non-positive threshold the stage is the identity
(non-numeric rows remain); and for a non-empty frame the function's
output is the skill stage applied after the experience stage. -/
theorem experience_filter_rows (min_exp : ℚ) (df : List Candidate) (c : Candidate)
    (rs : List String) :
    (0 < min_exp →
      (c ∈ experienceStage min_exp df ↔
        c ∈ df ∧ ∃ q, c.experience_years = some q ∧ min_exp ≤ q)) ∧
    (min_exp ≤ 0 → experienceStage min_exp df = df) ∧
    (df.isEmpty = false →
      (auto_pre_screen_candidates (some df) (some ⟨min_exp, rs⟩)).1 =
        some (skillStage rs (experienceStage min_exp df))) := by
  refine ⟨?_, ?_, ?_⟩
  · intro hpos
    unfold experienceStage
    rw [if_pos hpos, List.mem_filter]
    constructor
    · rintro ⟨h1, h2⟩
      refine ⟨h1, ?_⟩
      cases hc : c.experience_years with
      | none => rw [hc] at h2; simp at h2
      | some q =>
        rw [hc] at h2
        exact ⟨q, rfl, by simpa using h2⟩
    · rintro ⟨h1, q, hq, hle⟩
      refine ⟨h1, ?_⟩
      rw [hq]
      simpa using hle
  · intro hle
    unfold experienceStage
    rw [if_neg (not_lt.mpr hle)]
  · intro hne
    simp [auto_pre_screen_candidates, hne]

/-- Witness for C5 at a concrete input: threshold 2, one candidate with
3 years and one with a non-numeric experience value. -/
theorem experience_filter_rows_witness :
    (0 < (2 : ℚ)) ∧
    ((⟨some "A", some 3, none⟩ : Candidate) ∈
        experienceStage 2 [⟨some "A", some 3, none⟩, ⟨some "B", none, none⟩] ↔
      (⟨some "A", some 3, none⟩ : Candidate) ∈
        [(⟨some "A", some 3, none⟩ : Candidate), ⟨some "B", none, none⟩] ∧
      ∃ q, (⟨some "A", some 3, none⟩ : Candidate).experience_years = some q ∧ (2 : ℚ) ≤ q) :=
  ⟨by norm_num,
    (experience_filter_rows 2 [⟨some "A", some 3, none⟩, ⟨some "B", none, none⟩]
      ⟨some "A", some 3, none⟩ []).1 (by norm_num)⟩

/-- Witness for the amended C3 at a concrete input: integer scores 80
and 50, blended to 71. -/
theorem final_score_within_span_witness :
    ((⟨some "A", some 80, 50, 71⟩ : ScoredResult) ∈
      match_candidates_with_jd [⟨some "A", some 5, some "Python"⟩] "jd"
        (some [⟨some "A", some 80⟩]) (fun _ => "resume text") (fun _ _ => 50)) ∧
    (0 < (⟨some "A", some 80, 50, 71⟩ : ScoredResult).semantic_score) ∧
    (min (((⟨some "A", some 80, 50, 71⟩ : ScoredResult).match_percentage).getD 0)
        ((⟨some "A", some 80, 50, 71⟩ : ScoredResult).semantic_score) ≤
        (⟨some "A", some 80, 50, 71⟩ : ScoredResult).final_score ∧
      (⟨some "A", some 80, 50, 71⟩ : ScoredResult).final_score ≤
        max (((⟨some "A", some 80, 50, 71⟩ : ScoredResult).match_percentage).getD 0)
          ((⟨some "A", some 80, 50, 71⟩ : ScoredResult).semantic_score)) := by
  have hval : round2 ((80 : ℚ) * (7/10) + 50 * (3/10)) = 71 := by
    unfold round2 pyRoundInt
    norm_num
  have hne : (fun _ : String => "resume text") (((some "A" : Option String)).getD "") ≠ "" := by
    decide
  have hmem : (⟨some "A", some 80, 50, 71⟩ : ScoredResult) ∈
      match_candidates_with_jd [⟨some "A", some 5, some "Python"⟩] "jd"
        (some [⟨some "A", some 80⟩]) (fun _ => "resume text") (fun _ _ => 50) := by
    have h1 : match_candidates_with_jd [⟨some "A", some 5, some "Python"⟩] "jd"
        (some [⟨some "A", some 80⟩]) (fun _ => "resume text") (fun _ _ => 50) =
        [scoreResult "jd" (fun _ => "resume text") (fun _ _ => 50) ⟨some "A", some 80⟩] := by
      simp [match_candidates_with_jd]
    rw [h1, scoreResult_found _ _ _ _ hne, List.mem_singleton]
    show (⟨some "A", some 80, 50, 71⟩ : ScoredResult) =
      ⟨some "A", some 80, 50, round2 ((80 : ℚ) * (7/10) + 50 * (3/10))⟩
    rw [hval]
  refine ⟨hmem, by show (0 : ℚ) < 50; norm_num, ?_⟩
  exact final_score_within_span _ _ _ _ _ _ hmem (by show (0 : ℚ) < 50; norm_num)
    ⟨8000, by show (80 : ℚ) = ((8000 : ℤ) : ℚ) / 100; norm_num⟩
    ⟨5000, by show (50 : ℚ) = ((5000 : ℤ) : ℚ) / 100; norm_num⟩

/-! ## JSON extraction: claim C6 -/

theorem pyFind_eq_none_iff (c : Char) (l : List Char) : pyFind c l = none ↔ c ∉ l := by
  induction l with
  | nil => simp [pyFind]
  | cons x xs ih =>
    by_cases h : x = c
    · simp [pyFind, h]
    · have hstep : pyFind c (x :: xs) = (pyFind c xs).map (· + 1) := by
        simp [pyFind, h]
      rw [hstep, Option.map_eq_none', ih]
      constructor
      · intro hn hm
        rcases List.mem_cons.mp hm with rfl | hm2
        · exact h rfl
        · exact hn hm2
      · intro hn hm
        exact hn (List.mem_cons_of_mem x hm)

theorem pyFind_append_head (c : Char) (l₁ l₂ : List Char) (h1 : c ∉ l₁)
    (h2 : l₂.head? = some c) : pyFind c (l₁ ++ l₂) = some l₁.length := by
  induction l₁ with
  | nil =>
    cases l₂ with
    | nil => simp at h2
    | cons b t =>
      simp only [List.head?] at h2
      injection h2 with h2
      subst h2
      simp [pyFind]
  | cons a t ih =>
    have ha : ¬(a = c) := fun hh => h1 (List.mem_cons.mpr (Or.inl hh.symm))
    have ht : c ∉ t := fun hm => h1 (List.mem_cons_of_mem a hm)
    simp [pyFind, ha, ih ht]

theorem extract_braced_list_eval (cs : List Char) (i j : Nat)
    (hf : pyFind '{' cs = some i) (hr : pyFind '}' cs.reverse = some j) :
    extract_braced_list cs =
      if i < cs.length - 1 - j + 1 then
        some ((cs.drop i).take (cs.length - 1 - j + 1 - i))
      else none := by
  unfold extract_braced_list pyRfind
  rw [hf, hr]
  rfl

/-- C6: the first-`{`-to-last-`}` extraction recovers a JSON object
wrapped in brace-free prose exactly; a response with no `{` or no `}`
extracts nothing, and both `parse_resume_with_groq` and
`extract_jd_requirements` turn a failed extraction or a failed
`json.loads` into `None` rather than an uncaught exception. -/
theorem braced_json_extraction (pre mid post : String)
    (hpre : '{' ∉ pre.data) (hpost : '}' ∉ post.data)
    (hh : mid.data.head? = some '{') (hl : mid.data.getLast? = some '}') :
    extract_braced (pre ++ mid ++ post) = some mid ∧
    (∀ s : String, '{' ∉ s.data → extract_braced s = none) ∧
    (∀ s : String, '}' ∉ s.data → extract_braced s = none) ∧
    (∀ (e p : Option String) (m : Bool) (fn : String) (ud : Option String)
        (now resp : String) (pj : String → Option LlmResume),
        extract_braced resp = none →
        parse_resume_with_groq e p m fn ud now (some resp) pj = none) ∧
    (∀ (e p : Option String) (m : Bool) (fn : String) (ud : Option String)
        (now resp jt : String) (pj : String → Option LlmResume),
        extract_braced resp = some jt → pj jt = none →
        parse_resume_with_groq e p m fn ud now (some resp) pj = none) ∧
    (∀ (resp : String) (pj : String → Option JdRequirements),
        extract_braced resp = none → extract_jd_requirements (some resp) pj = none) ∧
    (∀ (resp jt : String) (pj : String → Option JdRequirements),
        extract_braced resp = some jt → pj jt = none →
        extract_jd_requirements (some resp) pj = none) := by
  refine ⟨?_, ?_, ?_, ?_, ?_, ?_, ?_⟩
  · -- exact recovery
    have hdata : (pre ++ mid ++ post).data = pre.data ++ (mid.data ++ post.data) := by
      rw [String.data_append, String.data_append, List.append_assoc]
    have hmidne : mid.data ≠ [] := by
      intro h
      rw [h] at hh
      simp at hh
    have hm1 : 1 ≤ mid.data.length := by
      cases hc : mid.data with
      | nil => exact absurd hc hmidne
      | cons a t => simp
    have hfind : pyFind '{' ((pre ++ mid ++ post).data) = some pre.data.length := by
      rw [hdata]
      refine pyFind_append_head '{' pre.data (mid.data ++ post.data) hpre ?_
      cases hc : mid.data with
      | nil => exact absurd hc hmidne
      | cons a t =>
        rw [hc] at hh
        simp only [List.head?] at hh ⊢
        exact hh
    have hrev : ((pre ++ mid ++ post).data).reverse =
        post.data.reverse ++ (mid.data.reverse ++ pre.data.reverse) := by
      rw [hdata]
      simp [List.reverse_append]
    have hrfind : pyFind '}' (((pre ++ mid ++ post).data).reverse) =
        some post.data.length := by
      rw [hrev]
      have hstep : pyFind '}' (post.data.reverse ++ (mid.data.reverse ++ pre.data.reverse)) =
          some post.data.reverse.length := by
        refine pyFind_append_head '}' post.data.reverse (mid.data.reverse ++ pre.data.reverse)
          (by rw [List.mem_reverse]; exact hpost) ?_
        have h2 : mid.data.reverse.head? = some '}' := by
          rw [List.head?_reverse]
          exact hl
        have hne : mid.data.reverse ≠ [] := by
          intro h
          exact hmidne (by simpa using congrArg List.reverse h)
        cases hc : mid.data.reverse with
        | nil => exact absurd hc hne
        | cons a t =>
          rw [hc] at h2
          have h3 : a = '}' := by simpa using h2
          rw [List.cons_append]
          simp [h3]
      rw [hstep, List.length_reverse]
    unfold extract_braced
    rw [extract_braced_list_eval _ _ _ hfind hrfind]
    have hlen : ((pre ++ mid ++ post).data).length =
        pre.data.length + mid.data.length + post.data.length := by
      rw [hdata]
      simp [Nat.add_assoc]
    have hidx : ((pre ++ mid ++ post).data).length - 1 - post.data.length + 1 =
        pre.data.length + mid.data.length := by
      rw [hlen]
      omega
    rw [hidx, if_pos (by omega)]
    have hdrop : (((pre ++ mid ++ post).data).drop pre.data.length) = mid.data ++ post.data := by
      rw [hdata, List.drop_left]
    have htake : (mid.data ++ post.data).take (pre.data.length + mid.data.length - pre.data.length) =
        mid.data := by
      rw [Nat.add_sub_cancel_left, List.take_left]
    rw [hdrop, htake]
    rfl
  · intro s hs
    unfold extract_braced extract_braced_list
    rw [(pyFind_eq_none_iff '{' s.data).mpr hs]
    rfl
  · intro s hs
    unfold extract_braced extract_braced_list pyRfind
    rw [(pyFind_eq_none_iff '}' s.data.reverse).mpr (by rw [List.mem_reverse]; exact hs)]
    cases hf : pyFind '{' s.data with
    | none => rfl
    | some j => simp
  · intro e p m fn ud now resp pj hx
    simp only [parse_resume_with_groq, hx]
  · intro e p m fn ud now resp jt pj hx hj
    simp only [parse_resume_with_groq, hx, hj]
  · intro resp pj hx
    simp only [extract_jd_requirements, hx]
  · intro resp jt pj hx hj
    simp only [extract_jd_requirements, hx, hj]

/-- Witness for C6 at the concrete response of the spec example:
`Sure! {"name":"A"} Thanks`. -/
theorem braced_json_extraction_witness :
    ('{' ∉ ("Sure! " : String).data) ∧ ('}' ∉ (" Thanks" : String).data) ∧
    (("\x7b\"name\":\"A\"\x7d" : String).data.head? = some '{') ∧
    (("\x7b\"name\":\"A\"\x7d" : String).data.getLast? = some '}') ∧
    extract_braced ("Sure! " ++ "\x7b\"name\":\"A\"\x7d" ++ " Thanks") = some "\x7b\"name\":\"A\"\x7d" :=
  ⟨by decide, by decide, by decide, by decide,
    (braced_json_extraction "Sure! " "\x7b\"name\":\"A\"\x7d" " Thanks"
      (by decide) (by decide) (by decide) (by decide)).1⟩

/-! ## Contact reconciliation under masking: claim C2

The strict extraction regex
`\b[A-Za-z0-9._%+-]+@[A-Za-z0-9.-]+\.[A-Z|a-z]{2,}\b` requires a
dot-separated top-level domain, while the masking regex `\S+@\S+` does
not, so an original text such as `Contact: foo@bar` is masked for the
LLM yet yields no regex-extracted email (`email_extracted = None`); the
code then keeps whatever the model returned, which can be the
placeholder itself. -/

/-- Counterexample to C2 as stated: with masking enabled and no strict
regex match in the original text (extraction boundary `none`, reachable
e.g. from the text `Contact: foo@bar`), a record is returned whose
`email` is the literal masked placeholder, which the claim says can
never happen. -/
theorem masked_placeholder_survives :
    (parse_resume_with_groq none none true "cv.pdf" none "t0"
        (some "\x7b\"email\":\"[EMAIL_MASKED]\"\x7d")
        (fun _ => some ⟨some "[EMAIL_MASKED]", none, "rest"⟩)).map (fun r => r.email) =
      some (some "[EMAIL_MASKED]") := by
  rfl

/-- C2 (amended): with masking enabled, whenever the contact regexes
found a (necessarily non-empty) value in the original unredacted text,
that value overrides the model's output and cannot be a masked
placeholder (an extracted email contains `@` and an extracted phone
contains a digit, while the placeholders contain neither); but when a
regex found nothing, the model's field is kept unchanged and may be the
placeholder verbatim. -/
theorem masked_contacts_reconciled (e p : Option String) (fn : String)
    (ud : Option String) (now resp jt : String)
    (pj : String → Option LlmResume) (rec : LlmResume)
    (hx : extract_braced resp = some jt) (hp : pj jt = some rec) :
    parse_resume_with_groq e p true fn ud now (some resp) pj =
      some ⟨reconcileField true e rec.email, reconcileField true p rec.phone,
        rec.rest, fn, ud.getD now⟩ ∧
    (∀ s, e = some s → s ≠ "" → reconcileField true e rec.email = some s) ∧
    (optTruthy e = false → reconcileField true e rec.email = rec.email) ∧
    (∀ s, p = some s → s ≠ "" → reconcileField true p rec.phone = some s) ∧
    (optTruthy p = false → reconcileField true p rec.phone = rec.phone) ∧
    (∀ s, e = some s → '@' ∈ s.data →
      reconcileField true e rec.email ≠ some "[EMAIL_MASKED]") ∧
    (∀ s, p = some s → (∃ d ∈ s.data, d.isDigit) →
      reconcileField true p rec.phone ≠ some "[PHONE_MASKED]") := by
  refine ⟨?_, ?_, ?_, ?_, ?_, ?_, ?_⟩
  · simp only [parse_resume_with_groq, hx, hp]
  · rintro s rfl hne
    simp [reconcileField, optTruthy, hne]
  · intro hf
    simp [reconcileField, hf]
  · rintro s rfl hne
    simp [reconcileField, optTruthy, hne]
  · intro hf
    simp [reconcileField, hf]
  · rintro s rfl hat
    have hne : s ≠ "" := by
      intro h
      rw [h] at hat
      simp at hat
    rw [show reconcileField true (some s) rec.email = some s by
      simp [reconcileField, optTruthy, hne]]
    intro hcontra
    injection hcontra with hs
    rw [hs] at hat
    revert hat
    decide
  · rintro s rfl hd
    obtain ⟨d, hdmem, hdig⟩ := hd
    have hne : s ≠ "" := by
      intro h
      rw [h] at hdmem
      simp at hdmem
    rw [show reconcileField true (some s) rec.phone = some s by
      simp [reconcileField, optTruthy, hne]]
    intro hcontra
    injection hcontra with hs
    rw [hs] at hdmem
    have hall : ∀ c ∈ ("[PHONE_MASKED]" : String).data, ¬ c.isDigit := by decide
    exact hall d hdmem hdig

/-- Witness for the amended C2 at a concrete input: extracted contacts
`a@b.co` and `5551234567`, model output consisting of both placeholders. -/
theorem masked_contacts_reconciled_witness :
    (extract_braced "\x7b\"email\":\"[EMAIL_MASKED]\"\x7d" = some "\x7b\"email\":\"[EMAIL_MASKED]\"\x7d") ∧
    ((fun _ : String => some (⟨some "[EMAIL_MASKED]", some "[PHONE_MASKED]", "rest"⟩ : LlmResume))
        "\x7b\"email\":\"[EMAIL_MASKED]\"\x7d" =
      some ⟨some "[EMAIL_MASKED]", some "[PHONE_MASKED]", "rest"⟩) ∧
    (parse_resume_with_groq (some "a@b.co") (some "5551234567") true "cv.pdf" none "t0"
        (some "\x7b\"email\":\"[EMAIL_MASKED]\"\x7d")
        (fun _ => some ⟨some "[EMAIL_MASKED]", some "[PHONE_MASKED]", "rest"⟩) =
      some ⟨reconcileField true (some "a@b.co") (some "[EMAIL_MASKED]"),
        reconcileField true (some "5551234567") (some "[PHONE_MASKED]"),
        "rest", "cv.pdf", "t0"⟩) := by
  refine ⟨by rfl, by rfl, ?_⟩
  exact (masked_contacts_reconciled (some "a@b.co") (some "5551234567") "cv.pdf" none "t0"
    "\x7b\"email\":\"[EMAIL_MASKED]\"\x7d" "\x7b\"email\":\"[EMAIL_MASKED]\"\x7d"
    (fun _ => some ⟨some "[EMAIL_MASKED]", some "[PHONE_MASKED]", "rest"⟩)
    ⟨some "[EMAIL_MASKED]", some "[PHONE_MASKED]", "rest"⟩ (by rfl) (by rfl)).1

/-! ## TF-IDF symmetry: claim C8 -/

theorem sk_le_trans : ∀ a b c : String, sk_le a b = true → sk_le b c = true →
    sk_le a c = true := by
  intro a b c hab hbc
  simp only [sk_le, decide_eq_true_iff] at *
  exact le_trans hab hbc

theorem sk_le_total : ∀ a b : String, (sk_le a b || sk_le b a) = true := by
  intro a b
  simp only [sk_le, Bool.or_eq_true, decide_eq_true_iff]
  exact le_total a b

theorem mergeSort_perm_eq {l₁ l₂ : List String} (h : l₁.Perm l₂) :
    l₁.mergeSort sk_le = l₂.mergeSort sk_le := by
  have hs1 := List.sorted_mergeSort sk_le_trans sk_le_total l₁
  have hs2 := List.sorted_mergeSort sk_le_trans sk_le_total l₂
  have hperm : (l₁.mergeSort sk_le).Perm (l₂.mergeSort sk_le) :=
    ((l₁.mergeSort_perm sk_le).trans h).trans (l₂.mergeSort_perm sk_le).symm
  have hanti : IsAntisymm String (fun a b => sk_le a b = true) := by
    constructor
    intro a b hab hba
    simp only [sk_le, decide_eq_true_iff] at hab hba
    exact le_antisymm hab hba
  exact @List.eq_of_perm_of_sorted _ _ hanti _ _ hperm hs1 hs2

theorem sk_terms_comm (ta tb : List String) : sk_terms ta tb = sk_terms tb ta := by
  unfold sk_terms
  rw [mergeSort_perm_eq (List.perm_append_comm)]

theorem sk_count_append_comm (t : String) (ta tb : List String) :
    sk_count t (ta ++ tb) = sk_count t (tb ++ ta) := by
  unfold sk_count
  rw [List.count_append, List.count_append, Nat.add_comm]

theorem sk_rank_le_comm (ta tb : List String) : sk_rank_le ta tb = sk_rank_le tb ta := by
  funext a b
  unfold sk_rank_le
  rw [sk_count_append_comm a ta tb, sk_count_append_comm b ta tb]

theorem sk_vocab_comm (ta tb : List String) : sk_vocab ta tb = sk_vocab tb ta := by
  simp only [sk_vocab]
  rw [sk_terms_comm, sk_rank_le_comm]

theorem sk_df_comm (ta tb : List String) (t : String) : sk_df ta tb t = sk_df tb ta t := by
  unfold sk_df
  exact Nat.add_comm _ _

theorem sk_idf_comm (ta tb : List String) (t : String) :
    sk_idf ta tb t = sk_idf tb ta t := by
  unfold sk_idf
  rw [sk_df_comm]

theorem sk_vec_comm (ta tb d : List String) : sk_vec ta tb d = sk_vec tb ta d := by
  unfold sk_vec
  rw [sk_vocab_comm]
  refine List.map_congr_left ?_
  intro t ht
  rw [sk_idf_comm]

theorem dotR_comm (u v : List ℝ) : dotR u v = dotR v u := by
  unfold dotR
  induction u generalizing v with
  | nil => cases v <;> simp
  | cons x xs ih =>
    cases v with
    | nil => simp
    | cons y ys => simp [ih ys, mul_comm]

theorem cosineSim_comm (u v : List ℝ) : cosineSim u v = cosineSim v u := by
  unfold cosineSim
  rw [dotR_comm u v, mul_comm]

/-- C8: `calculate_semantic_score` is symmetric in its two text
arguments (the TF-IDF vector space is fit jointly on the pair, every
per-term statistic depends only on the unordered pair, and the cosine is
commutative), and the failure case — an empty vocabulary, which makes
`fit_transform` raise — yields 0 rather than an exception. -/
theorem semantic_score_symmetric :
    (∀ a b : String, calculate_semantic_score a b = calculate_semantic_score b a) ∧
    (∀ a b : String, sk_terms (sk_tokenize a) (sk_tokenize b) = [] →
      calculate_semantic_score a b = 0) := by
  constructor
  · intro a b
    simp only [calculate_semantic_score]
    rw [sk_terms_comm (sk_tokenize a) (sk_tokenize b)]
    by_cases h : sk_terms (sk_tokenize b) (sk_tokenize a) = []
    · rw [if_pos h, if_pos h]
    · rw [if_neg h, if_neg h]
      rw [sk_vec_comm (sk_tokenize a) (sk_tokenize b) (sk_tokenize a),
        sk_vec_comm (sk_tokenize a) (sk_tokenize b) (sk_tokenize b),
        cosineSim_comm]
  · intro a b h
    simp only [calculate_semantic_score]
    rw [if_pos h]

/-- Witness for C8's failure clause at a concrete input: two texts with
no token of length at least two produce an empty vocabulary and score 0. -/
theorem semantic_score_symmetric_witness :
    (sk_terms (sk_tokenize "a !") (sk_tokenize "? b") = []) ∧
    calculate_semantic_score "a !" "? b" = 0 := by
  have h : sk_terms (sk_tokenize "a !") (sk_tokenize "? b") = [] := by
    have h1 : sk_tokenize "a !" = [] := rfl
    have h2 : sk_tokenize "? b" = [] := rfl
    rw [h1, h2]
    simp [sk_terms]
  exact ⟨h, semantic_score_symmetric.2 "a !" "? b" h⟩

/-! ## The `re.sub` scanner: generic lemmas -/

theorem reSubAux_succ_cons (m : List Char → Option Nat) (rep : List Char)
    (f : Nat) (c : Char) (rest : List Char) :
    reSubAux m rep (f + 1) (c :: rest) =
      match m (c :: rest) with
      | none => c :: reSubAux m rep f rest
      | some k => rep ++ reSubAux m rep f ((c :: rest).drop (max k 1)) := rfl

theorem reSubAux_fuel_eq (m : List Char → Option Nat) (rep : List Char) :
    ∀ (f g : Nat) (cs : List Char), cs.length ≤ f → cs.length ≤ g →
      reSubAux m rep f cs = reSubAux m rep g cs := by
  intro f
  induction f with
  | zero =>
    intro g cs hf hg
    have hnil : cs = [] := List.length_eq_zero.mp (Nat.le_zero.mp hf)
    subst hnil
    cases g <;> rfl
  | succ f ih =>
    intro g cs hf hg
    cases cs with
    | nil => cases g <;> rfl
    | cons c rest =>
      cases g with
      | zero => simp at hg
      | succ g =>
        rw [reSubAux_succ_cons, reSubAux_succ_cons]
        cases hm : m (c :: rest) with
        | none =>
          have hf2 : rest.length ≤ f := by
            simp only [List.length_cons] at hf
            omega
          have hg2 : rest.length ≤ g := by
            simp only [List.length_cons] at hg
            omega
          show c :: reSubAux m rep f rest = c :: reSubAux m rep g rest
          rw [ih g rest hf2 hg2]
        | some k =>
          have hf2 : ((c :: rest).drop (max k 1)).length ≤ f := by
            rw [List.length_drop]
            simp only [List.length_cons] at hf ⊢
            omega
          have hg2 : ((c :: rest).drop (max k 1)).length ≤ g := by
            rw [List.length_drop]
            simp only [List.length_cons] at hg ⊢
            omega
          show rep ++ reSubAux m rep f ((c :: rest).drop (max k 1)) =
            rep ++ reSubAux m rep g ((c :: rest).drop (max k 1))
          rw [ih g _ hf2 hg2]

theorem reSub_nil (m : List Char → Option Nat) (rep : List Char) : reSub m rep [] = [] := rfl

theorem reSub_cons_none (m : List Char → Option Nat) (rep : List Char) (c : Char)
    (rest : List Char) (hm : m (c :: rest) = none) :
    reSub m rep (c :: rest) = c :: reSub m rep rest := by
  unfold reSub
  rw [show (c :: rest).length = rest.length + 1 from rfl, reSubAux_succ_cons, hm]

theorem reSub_cons_some (m : List Char → Option Nat) (rep : List Char) (c : Char)
    (rest : List Char) (k : Nat) (hm : m (c :: rest) = some k) :
    reSub m rep (c :: rest) = rep ++ reSub m rep ((c :: rest).drop (max k 1)) := by
  unfold reSub
  rw [show (c :: rest).length = rest.length + 1 from rfl, reSubAux_succ_cons, hm]
  show rep ++ reSubAux m rep rest.length ((c :: rest).drop (max k 1)) =
    rep ++ reSubAux m rep ((c :: rest).drop (max k 1)).length ((c :: rest).drop (max k 1))
  congr 1
  apply reSubAux_fuel_eq
  · rw [List.length_drop]
    simp only [List.length_cons]
    omega
  · exact le_rfl

theorem reSub_eq_self (m : List Char → Option Nat) (rep : List Char) :
    ∀ cs, (∀ i, m (cs.drop i) = none) → reSub m rep cs = cs := by
  intro cs
  induction cs with
  | nil => intro h; rfl
  | cons c rest ih =>
    intro h
    have h0 : m (c :: rest) = none := by simpa using h 0
    rw [reSub_cons_none m rep c rest h0, ih]
    intro i
    simpa [List.drop_succ_cons] using h (i + 1)

theorem reSub_cons_elim (m : List Char → Option Nat) (r0 : Char) (rrest : List Char)
    (xs : List Char) (y : Char) (ys : List Char)
    (h : reSub m (r0 :: rrest) xs = y :: ys) :
    (∃ t, xs = y :: t ∧ m xs = none ∧ ys = reSub m (r0 :: rrest) t) ∨
      (∃ k, m xs = some k ∧ y = r0) := by
  cases xs with
  | nil =>
    rw [reSub_nil] at h
    cases h
  | cons c rest =>
    cases hm : m (c :: rest) with
    | none =>
      rw [reSub_cons_none m _ c rest hm] at h
      injection h with h1 h2
      exact Or.inl ⟨rest, by rw [h1], rfl, h2.symm⟩
    | some k =>
      rw [reSub_cons_some m _ c rest k hm] at h
      rw [List.cons_append] at h
      injection h with h1 h2
      exact Or.inr ⟨k, rfl, h1.symm⟩

/-! ## The phone matcher: shape lemmas -/

theorem phoneMatch_nil : phoneMatch [] = none := rfl

theorem phoneMatch_plus (t : List Char) :
    phoneMatch ('+' :: t) = (phoneCore t).map (· + 1) := rfl

theorem phoneMatch_cons_of_ne_plus (c : Char) (t : List Char) (hc : c ≠ '+') :
    phoneMatch (c :: t) = phoneCore (c :: t) := by
  unfold phoneMatch
  split
  · next t2 heq =>
    injection heq with h1 h2
    exact absurd h1 hc
  · rfl

theorem isDigit_ne_plus {c : Char} (h : c.isDigit = true) : c ≠ '+' := by
  intro he
  subst he
  exact absurd h (by decide)

theorem phoneTry_eq_some_iff (t : List Char) (m k : Nat) :
    phoneTry t m = some k ↔
      ((t.take m).length = m ∧ (t.take m).all isPhoneClassChar = true ∧
        (∃ e r, t.drop m = e :: r ∧ e.isDigit = true) ∧ k = 1 + m + 1) := by
  unfold phoneTry
  by_cases h : (decide ((t.take m).length = m) && (t.take m).all isPhoneClassChar &&
      (match t.drop m with | e :: _ => e.isDigit | [] => false)) = true
  · rw [if_pos h]
    simp only [Bool.and_eq_true] at h
    obtain ⟨⟨h1, h2⟩, h3⟩ := h
    constructor
    · intro hk
      injection hk with hk
      refine ⟨by simpa using h1, h2, ?_, hk.symm⟩
      cases hd : t.drop m with
      | nil => rw [hd] at h3; cases h3
      | cons e r =>
        rw [hd] at h3
        exact ⟨e, r, rfl, h3⟩
    · rintro ⟨_, _, _, rfl⟩
      rfl
  · rw [if_neg h]
    constructor
    · intro hk
      cases hk
    · rintro ⟨h1, h2, ⟨e, r, hd, he⟩, rfl⟩
      exfalso
      apply h
      simp only [Bool.and_eq_true]
      refine ⟨⟨by simpa using h1, h2⟩, ?_⟩
      rw [hd]
      exact he

theorem phoneCore_nil : phoneCore [] = none := rfl

theorem phoneCore_cons (d : Char) (t : List Char) :
    phoneCore (d :: t) =
      if d.isDigit then List.findSome? (phoneTry t) [12, 11, 10, 9, 8] else none := rfl

theorem phoneCore_cons_eq_some (d : Char) (t : List Char) (k : Nat)
    (h : phoneCore (d :: t) = some k) :
    d.isDigit = true ∧ ∃ m, 8 ≤ m ∧ m ≤ 12 ∧ phoneTry t m = some k := by
  rw [phoneCore_cons] at h
  by_cases hd : d.isDigit = true
  · rw [if_pos hd] at h
    obtain ⟨mm, hmem, hsome⟩ := List.exists_of_findSome?_eq_some h
    simp only [List.mem_cons, List.not_mem_nil, or_false] at hmem
    refine ⟨hd, mm, ?_, ?_, hsome⟩ <;>
      (rcases hmem with rfl | rfl | rfl | rfl | rfl <;> norm_num)
  · rw [if_neg hd] at h
    cases h

theorem phoneCore_ne_none (d : Char) (t : List Char) (m : Nat) (hd : d.isDigit = true)
    (h8 : 8 ≤ m) (h12 : m ≤ 12) (ht : phoneTry t m ≠ none) :
    phoneCore (d :: t) ≠ none := by
  rw [phoneCore_cons, if_pos hd]
  intro hc
  rw [List.findSome?_eq_none_iff] at hc
  apply ht
  apply hc
  simp only [List.mem_cons, List.not_mem_nil, or_false]
  omega

theorem phoneMatch_some_decomp (cs : List Char) (k : Nat) (h : phoneMatch cs = some k) :
    ∃ pre suf, cs = pre ++ suf ∧ pre.length = k ∧ phoneWord pre := by
  cases cs with
  | nil => cases h
  | cons c t0 =>
    by_cases hc : c = '+'
    · subst hc
      rw [phoneMatch_plus] at h
      cases hcore : phoneCore t0 with
      | none => rw [hcore] at h; cases h
      | some k0 =>
        rw [hcore] at h
        injection h with h
        have hk1 : k0 + 1 = k := h
        cases t0 with
        | nil => rw [phoneCore_nil] at hcore; cases hcore
        | cons d t =>
          obtain ⟨hd, m, h8, h12, htry⟩ := phoneCore_cons_eq_some d t k0 hcore
          rw [phoneTry_eq_some_iff] at htry
          obtain ⟨hlen, hall, ⟨e, r, hdrop, he⟩, hk0⟩ := htry
          have hsplit : t = t.take m ++ (e :: r) := by
            conv_lhs => rw [← List.take_append_drop m t]
            rw [hdrop]
          refine ⟨'+' :: d :: (t.take m ++ [e]), r, ?_, ?_, ?_⟩
          · conv_lhs => rw [hsplit]
            simp
          · rw [List.length_cons, List.length_cons, List.length_append, hlen,
              List.length_singleton]
            omega
          · refine ⟨['+'], d, t.take m, e, ?_, Or.inr rfl, hd, he, hall, ?_, ?_⟩
            · simp
            · rw [hlen]; exact h8
            · rw [hlen]; exact h12
    · rw [phoneMatch_cons_of_ne_plus c t0 hc] at h
      obtain ⟨hd, m, h8, h12, htry⟩ := phoneCore_cons_eq_some c t0 k h
      rw [phoneTry_eq_some_iff] at htry
      obtain ⟨hlen, hall, ⟨e, r, hdrop, he⟩, hk0⟩ := htry
      have hsplit : t0 = t0.take m ++ (e :: r) := by
        conv_lhs => rw [← List.take_append_drop m t0]
        rw [hdrop]
      refine ⟨c :: (t0.take m ++ [e]), r, ?_, ?_, ?_⟩
      · conv_lhs => rw [hsplit]
        simp
      · rw [List.length_cons, List.length_append, hlen, List.length_singleton]
        omega
      · refine ⟨[], c, t0.take m, e, ?_, Or.inl rfl, hd, he, hall, ?_, ?_⟩
        · simp
        · rw [hlen]; exact h8
        · rw [hlen]; exact h12

theorem phoneMatch_ne_none_of_word (cs pre : List Char) (hpre : pre <+: cs)
    (hw : phoneWord pre) : phoneMatch cs ≠ none := by
  obtain ⟨p, d, mid, e, hpd, hp, hd, he, hall, h8, h12⟩ := hw
  obtain ⟨suf, hsuf⟩ := hpre
  subst hsuf
  rw [hpd]
  have htry : phoneTry (mid ++ e :: suf) mid.length ≠ none := by
    rw [Ne, ← Option.not_isSome_iff_eq_none, not_not]
    rw [show phoneTry (mid ++ e :: suf) mid.length =
        some (1 + mid.length + 1) from ?_]
    · rfl
    · rw [phoneTry_eq_some_iff]
      refine ⟨?_, ?_, ⟨e, suf, ?_, he⟩, rfl⟩
      · rw [List.take_left]
      · rw [List.take_left]
        exact hall
      · rw [List.drop_left]
  have hkey : ∀ t0, t0 = mid ++ e :: suf → phoneCore (d :: t0) ≠ none := by
    intro t0 ht0
    subst ht0
    exact phoneCore_ne_none d _ mid.length hd h8 h12 htry
  rcases hp with rfl | rfl
  · have hd2 : d ≠ '+' := isDigit_ne_plus hd
    rw [show ([] ++ d :: mid ++ [e]) ++ suf = d :: (mid ++ e :: suf) by simp]
    rw [phoneMatch_cons_of_ne_plus d _ hd2]
    exact hkey _ rfl
  · rw [show (['+'] ++ d :: mid ++ [e]) ++ suf = '+' :: (d :: (mid ++ e :: suf)) by simp]
    rw [phoneMatch_plus]
    intro hnone
    rw [Option.map_eq_none'] at hnone
    exact hkey _ rfl hnone

theorem pat_of_class {c : Char} (h : isPhoneClassChar c = true) : isPhonePatChar c = true := by
  unfold isPhoneClassChar at h
  unfold isPhonePatChar
  simp only [Bool.or_eq_true] at h ⊢
  tauto

theorem phoneWord_all_pat (pre : List Char) (hw : phoneWord pre) :
    ∀ x ∈ pre, isPhonePatChar x = true := by
  obtain ⟨p, d, mid, e, hpd, hp, hd, he, hall, h8, h12⟩ := hw
  intro x hx
  rw [hpd] at hx
  simp only [List.mem_append, List.mem_cons, List.mem_singleton, List.not_mem_nil,
    or_false] at hx
  rcases hx with (hx | rfl | hx) | rfl
  · rcases hp with rfl | rfl
    · cases hx
    · rw [List.mem_singleton] at hx
      subst hx
      decide
  · unfold isPhonePatChar
    rw [hd]
    rfl
  · refine pat_of_class ?_
    rw [List.all_eq_true] at hall
    exact hall x hx
  · unfold isPhonePatChar
    rw [he]
    rfl

theorem takeWhile_append_all {p : Char → Bool} (l₁ l₂ : List Char)
    (h : ∀ x ∈ l₁, p x = true) :
    (l₁ ++ l₂).takeWhile p = l₁ ++ l₂.takeWhile p := by
  induction l₁ with
  | nil => simp
  | cons a t ih =>
    rw [List.cons_append, List.takeWhile_cons_of_pos (h a (List.mem_cons_self a t)),
      ih fun x hx => h x (List.mem_cons_of_mem a hx)]
    rfl

theorem phoneMatch_none_transfer (xs1 xs2 : List Char)
    (hpre : xs2.takeWhile isPhonePatChar <+: xs1.takeWhile isPhonePatChar)
    (h1 : phoneMatch xs1 = none) : phoneMatch xs2 = none := by
  by_contra h2
  obtain ⟨k, hk⟩ := Option.ne_none_iff_exists.mp h2
  obtain ⟨pre, suf, hx2, hlen, hw⟩ := phoneMatch_some_decomp xs2 k hk.symm
  have hall := phoneWord_all_pat pre hw
  have hp1 : pre <+: xs2.takeWhile isPhonePatChar := by
    rw [hx2, takeWhile_append_all pre suf hall]
    exact List.prefix_append pre _
  have hp2 : pre <+: xs1 := (hp1.trans hpre).trans (List.takeWhile_prefix _)
  exact phoneMatch_ne_none_of_word xs1 pre hp2 hw h1

theorem takeWhile_reSub_phone_prefix :
    ∀ cs, (reSub phoneMatch phoneRep cs).takeWhile isPhonePatChar <+:
      cs.takeWhile isPhonePatChar := by
  suffices H : ∀ (n : Nat) (cs : List Char), cs.length ≤ n →
      (reSub phoneMatch phoneRep cs).takeWhile isPhonePatChar <+:
        cs.takeWhile isPhonePatChar from fun cs => H cs.length cs le_rfl
  intro n
  induction n with
  | zero =>
    intro cs h
    have hnil : cs = [] := List.length_eq_zero.mp (Nat.le_zero.mp h)
    subst hnil
    rw [reSub_nil]
  | succ n ih =>
    intro cs hlen
    cases cs with
    | nil => rw [reSub_nil]
    | cons c rest =>
      cases hm : phoneMatch (c :: rest) with
      | none =>
        rw [reSub_cons_none _ _ _ _ hm]
        by_cases hc : isPhonePatChar c = true
        · rw [List.takeWhile_cons_of_pos hc, List.takeWhile_cons_of_pos hc]
          refine List.cons_prefix_cons.mpr ⟨rfl, ?_⟩
          exact ih rest (by simp only [List.length_cons] at hlen; omega)
        · rw [List.takeWhile_cons_of_neg (by simpa using hc)]
          exact List.nil_prefix
      | some k =>
        rw [reSub_cons_some _ _ _ _ _ hm,
          show phoneRep = '[' :: "PHONE_MASKED]".data from rfl, List.cons_append,
          List.takeWhile_cons_of_neg (by decide)]
        exact List.nil_prefix

theorem phoneMatch_none_of_head_not_pat (c : Char) (t : List Char)
    (hc : isPhonePatChar c = false) : phoneMatch (c :: t) = none := by
  have hplus : c ≠ '+' := by
    intro h
    subst h
    exact absurd hc (by decide)
  rw [phoneMatch_cons_of_ne_plus c t hplus]
  have hd : ¬(c.isDigit = true) := by
    intro h
    unfold isPhonePatChar at hc
    rw [h] at hc
    cases hc
  rw [phoneCore_cons, if_neg hd]

theorem phone_out_clean :
    ∀ cs i, phoneMatch ((reSub phoneMatch phoneRep cs).drop i) = none := by
  suffices H : ∀ (n : Nat) (cs : List Char), cs.length ≤ n → ∀ i,
      phoneMatch ((reSub phoneMatch phoneRep cs).drop i) = none from
    fun cs i => H cs.length cs le_rfl i
  intro n
  induction n with
  | zero =>
    intro cs h i
    have hnil : cs = [] := List.length_eq_zero.mp (Nat.le_zero.mp h)
    subst hnil
    rw [reSub_nil, List.drop_nil]
    exact phoneMatch_nil
  | succ n ih =>
    intro cs hlen i
    cases cs with
    | nil =>
      rw [reSub_nil, List.drop_nil]
      exact phoneMatch_nil
    | cons c rest =>
      cases hm : phoneMatch (c :: rest) with
      | none =>
        rw [reSub_cons_none _ _ _ _ hm]
        cases i with
        | zero =>
          rw [List.drop_zero]
          apply phoneMatch_none_transfer (c :: rest) _ ?_ hm
          by_cases hc : isPhonePatChar c = true
          · rw [List.takeWhile_cons_of_pos hc, List.takeWhile_cons_of_pos hc]
            exact List.cons_prefix_cons.mpr ⟨rfl, takeWhile_reSub_phone_prefix rest⟩
          · rw [List.takeWhile_cons_of_neg (by simpa using hc)]
            exact List.nil_prefix
        | succ i =>
          rw [List.drop_succ_cons]
          exact ih rest (by simp only [List.length_cons] at hlen; omega) i
      | some k =>
        rw [reSub_cons_some _ _ _ _ _ hm]
        by_cases hi : i < phoneRep.length
        · rw [List.drop_append_of_le_length (le_of_lt hi)]
          cases hd : phoneRep.drop i with
          | nil =>
            exfalso
            have hld := List.length_drop i phoneRep
            rw [hd] at hld
            simp only [List.length_nil] at hld
            omega
          | cons c0 t0 =>
            rw [List.cons_append]
            apply phoneMatch_none_of_head_not_pat
            have hc0 : c0 ∈ phoneRep :=
              List.mem_of_mem_drop (by rw [hd]; exact List.mem_cons_self c0 t0)
            have hall : ∀ x ∈ phoneRep, isPhonePatChar x = false := by decide
            exact hall c0 hc0
        · push_neg at hi
          rw [show i = phoneRep.length + (i - phoneRep.length) by omega, List.drop_append]
          apply ih
          · rw [List.length_drop]
            simp only [List.length_cons] at hlen ⊢
            omega

/-! ## The email matcher: shape lemmas -/

theorem emailMatch_eq (cs : List Char) :
    emailMatch cs =
      if '@' ∈ ((cs.takeWhile fun c => !isPySpace c).drop 1).dropLast then
        some (cs.takeWhile fun c => !isPySpace c).length
      else none := rfl

theorem emailMatch_nil : emailMatch [] = none := rfl

theorem emailMatch_space_head (c : Char) (t : List Char) (hc : isPySpace c = true) :
    emailMatch (c :: t) = none := by
  rw [emailMatch_eq, List.takeWhile_cons_of_neg (by simp [hc])]
  simp

theorem interior_decomp (l : List Char) :
    '@' ∈ (l.drop 1).dropLast ↔ ∃ pre b suf, l = pre ++ '@' :: b :: suf ∧ pre ≠ [] := by
  constructor
  · intro h
    cases l with
    | nil => simp at h
    | cons x t =>
      rw [List.drop_succ_cons, List.drop_zero] at h
      have htne : t.dropLast ≠ [] := by
        intro hnil
        rw [hnil] at h
        cases h
      have htne2 : t ≠ [] := by
        intro hnil
        rw [hnil] at htne
        exact htne rfl
      obtain ⟨s, r, hsr⟩ := List.append_of_mem h
      rcases List.eq_nil_or_concat t with h0 | ⟨L, lastc, hLl⟩
      · exact absurd h0 htne2
      rw [List.concat_eq_append] at hLl
      have hL : L = s ++ '@' :: r := by
        rw [hLl, List.dropLast_concat] at hsr
        exact hsr
      subst hL
      cases r with
      | nil =>
        refine ⟨x :: s, lastc, [], ?_, by simp⟩
        rw [hLl]
        simp
      | cons b r2 =>
        refine ⟨x :: s, b, r2 ++ [lastc], ?_, by simp⟩
        rw [hLl]
        simp
  · rintro ⟨pre, b, suf, rfl, hne⟩
    cases pre with
    | nil => exact absurd rfl hne
    | cons p0 pt =>
      rw [List.cons_append, List.drop_succ_cons, List.drop_zero,
        List.dropLast_append_of_ne_nil _ (by simp : ('@' :: b :: suf) ≠ []),
        List.dropLast_cons₂]
      simp

theorem emailMatch_some_head (cs : List Char) (k : Nat) (h : emailMatch cs = some k) :
    ∃ c t, cs = c :: t ∧ isPySpace c = false ∧ 3 ≤ k := by
  rw [emailMatch_eq] at h
  by_cases hq : '@' ∈ ((cs.takeWhile fun c => !isPySpace c).drop 1).dropLast
  · rw [if_pos hq] at h
    injection h with h
    have hlen3 : 3 ≤ (cs.takeWhile fun c => !isPySpace c).length := by
      have h1 : ((cs.takeWhile fun c => !isPySpace c).drop 1).dropLast ≠ [] := by
        intro hnil
        rw [hnil] at hq
        cases hq
      have h2 := List.length_pos.mpr h1
      rw [List.length_dropLast, List.length_drop] at h2
      omega
    cases hcs : cs with
    | nil =>
      rw [hcs] at hlen3
      simp at hlen3
    | cons c t =>
      refine ⟨c, t, rfl, ?_, by omega⟩
      by_contra hc
      rw [Bool.not_eq_false] at hc
      rw [hcs, List.takeWhile_cons_of_neg (by simp [hc])] at hlen3
      simp at hlen3
  · rw [if_neg hq] at h
    cases h

theorem emailMatch_window (c b : Char) (t : List Char)
    (hc : isPySpace c = false) (hb : isPySpace b = false) :
    emailMatch (c :: '@' :: b :: t) ≠ none := by
  rw [emailMatch_eq]
  rw [List.takeWhile_cons_of_pos (by simp [hc]),
    List.takeWhile_cons_of_pos (by decide),
    List.takeWhile_cons_of_pos (by simp [hb])]
  rw [List.drop_succ_cons, List.drop_zero, List.dropLast_cons₂]
  rw [if_pos (List.mem_cons_self _ _)]
  exact Option.some_ne_none _

theorem isPySpace_false_of_isDigit {c : Char} (h : c.isDigit = true) :
    isPySpace c = false := by
  by_contra hc
  rw [Bool.not_eq_false] at hc
  unfold isPySpace at hc
  simp only [Bool.or_eq_true, decide_eq_true_eq] at hc
  rcases hc with ((((rfl | rfl) | rfl) | rfl) | rfl) | rfl <;> exact absurd h (by decide)

theorem phoneMatch_some_head (cs : List Char) (k : Nat) (h : phoneMatch cs = some k) :
    ∃ c t, cs = c :: t ∧ isPySpace c = false := by
  obtain ⟨pre, suf, hcs, hlen, p, d, mid, e, hpd, hp, hd, he, hall, h8, h12⟩ :=
    phoneMatch_some_decomp cs k h
  subst hcs
  rw [hpd]
  rcases hp with rfl | rfl
  · refine ⟨d, mid ++ [e] ++ suf, by simp, isPySpace_false_of_isDigit hd⟩
  · refine ⟨'+', (d :: mid ++ [e]) ++ suf, by simp, by decide⟩

theorem dropWhile_head_not (p : Char → Bool) :
    ∀ (l : List Char) (s : Char) (t : List Char), l.dropWhile p = s :: t → p s = false := by
  intro l
  induction l with
  | nil => intro s t h; cases h
  | cons a l ih =>
    intro s t h
    by_cases ha : p a = true
    · rw [List.dropWhile_cons_of_pos ha] at h
      exact ih s t h
    · rw [List.dropWhile_cons_of_neg ha] at h
      injection h with h1 h2
      subst h1
      exact Bool.eq_false_iff.mpr ha

theorem dropWhile_eq_drop_len (p : Char → Bool) :
    ∀ l : List Char, l.dropWhile p = l.drop (l.takeWhile p).length := by
  intro l
  induction l with
  | nil => rfl
  | cons a t ih =>
    by_cases ha : p a = true
    · rw [List.dropWhile_cons_of_pos ha, List.takeWhile_cons_of_pos ha,
        List.length_cons, List.drop_succ_cons, ih]
    · rw [List.dropWhile_cons_of_neg ha, List.takeWhile_cons_of_neg ha]
      rfl

theorem emailMatch_some_k (cs : List Char) (k : Nat) (h : emailMatch cs = some k) :
    cs.drop (max k 1) = cs.dropWhile fun c => !isPySpace c := by
  have h3 : 3 ≤ k := by
    obtain ⟨c, t, _, _, h3⟩ := emailMatch_some_head cs k h
    exact h3
  rw [emailMatch_eq] at h
  by_cases hq : '@' ∈ ((cs.takeWhile fun c => !isPySpace c).drop 1).dropLast
  · rw [if_pos hq] at h
    injection h with h
    rw [Nat.max_eq_left (by omega), ← h, dropWhile_eq_drop_len]
  · rw [if_neg hq] at h
    cases h

/-! ## The bad-window predicate -/

theorem badAt_nil : ¬ BadAt [] := by
  rintro ⟨u, a, b, v, heq, ha, hb⟩
  have := List.append_eq_nil.mp heq.symm
  exact List.cons_ne_nil _ _ this.2

theorem badAt_cons (x : Char) (xs : List Char) :
    BadAt (x :: xs) ↔
      (∃ b v, xs = '@' :: b :: v ∧ isPySpace x = false ∧ isPySpace b = false) ∨
        BadAt xs := by
  constructor
  · rintro ⟨u, a, b, v, heq, ha, hb⟩
    cases u with
    | nil =>
      simp only [List.nil_append] at heq
      injection heq with h1 h2
      subst h1
      exact Or.inl ⟨b, v, h2, ha, hb⟩
    | cons w u2 =>
      rw [List.cons_append] at heq
      injection heq with h1 h2
      exact Or.inr ⟨u2, a, b, v, h2, ha, hb⟩
  · rintro (⟨b, v, heq, hx, hb⟩ | ⟨u, a, b, v, heq, ha, hb⟩)
    · exact ⟨[], x, b, v, by rw [heq]; rfl, hx, hb⟩
    · exact ⟨x :: u, a, b, v, by rw [heq, List.cons_append], ha, hb⟩

theorem badAt_append_right (l₁ l₂ : List Char) (h : BadAt l₂) : BadAt (l₁ ++ l₂) := by
  obtain ⟨u, a, b, v, heq, ha, hb⟩ := h
  exact ⟨l₁ ++ u, a, b, v, by rw [heq, List.append_assoc], ha, hb⟩

theorem badAt_mem (l : List Char) (h : BadAt l) : '@' ∈ l := by
  obtain ⟨u, a, b, v, heq, _, _⟩ := h
  rw [heq]
  simp

theorem not_badAt_cons (x : Char) (xs : List Char) (h : ¬ BadAt (x :: xs)) : ¬ BadAt xs :=
  fun hb => h ((badAt_cons x xs).mpr (Or.inr hb))

theorem badAt_append_cases (l₁ l₂ : List Char) (h : BadAt (l₁ ++ l₂)) :
    BadAt l₁ ∨ BadAt l₂ ∨
      (∃ u a, l₁ = u ++ [a] ∧ isPySpace a = false ∧
        ∃ b v, l₂ = '@' :: b :: v ∧ isPySpace b = false) ∨
      (∃ u a, l₁ = u ++ [a, '@'] ∧ isPySpace a = false ∧
        ∃ b v, l₂ = b :: v ∧ isPySpace b = false) := by
  induction l₁ with
  | nil => exact Or.inr (Or.inl (by simpa using h))
  | cons x t ih =>
    rw [List.cons_append, badAt_cons] at h
    rcases h with ⟨b, v, heq, hx, hb⟩ | h2
    · cases t with
      | nil =>
        simp only [List.nil_append] at heq
        exact Or.inr (Or.inr (Or.inl ⟨[], x, by simp, hx, b, v, heq, hb⟩))
      | cons y t2 =>
        rw [List.cons_append] at heq
        injection heq with h1 h2
        subst h1
        cases t2 with
        | nil =>
          simp only [List.nil_append] at h2
          exact Or.inr (Or.inr (Or.inr ⟨[], x, by simp, hx, b, v, h2, hb⟩))
        | cons z t3 =>
          rw [List.cons_append] at h2
          injection h2 with h3 h4
          subst h3
          exact Or.inl ⟨[], x, z, t3, by simp, hx, hb⟩
    · rcases ih h2 with hb1 | hb2 | ⟨u, a, hu, ha, rest⟩ | ⟨u, a, hu, ha, rest⟩
      · exact Or.inl ((badAt_cons x t).mpr (Or.inr hb1))
      · exact Or.inr (Or.inl hb2)
      · exact Or.inr (Or.inr (Or.inl ⟨x :: u, a, by rw [hu, List.cons_append], ha, rest⟩))
      · exact Or.inr (Or.inr (Or.inr ⟨x :: u, a, by rw [hu, List.cons_append], ha, rest⟩))

theorem badAt_of_emailMatch_drop (cs : List Char) (i : Nat)
    (h : emailMatch (cs.drop i) ≠ none) : BadAt cs := by
  obtain ⟨k, hk⟩ := Option.ne_none_iff_exists.mp h
  have hk2 : emailMatch (cs.drop i) = some k := hk.symm
  rw [emailMatch_eq] at hk2
  by_cases hq : '@' ∈ (((cs.drop i).takeWhile fun c => !isPySpace c).drop 1).dropLast
  · rw [interior_decomp] at hq
    obtain ⟨pre, b, suf, hruneq, hprene⟩ := hq
    rcases List.eq_nil_or_concat pre with rfl | ⟨u, a, hua⟩
    · exact absurd rfl hprene
    rw [List.concat_eq_append] at hua
    have hpref : ((cs.drop i).takeWhile fun c => !isPySpace c) <+: cs.drop i :=
      List.takeWhile_prefix _
    obtain ⟨rest3, hrest⟩ := hpref
    have hcs : cs = cs.take i ++ (((cs.drop i).takeWhile fun c => !isPySpace c) ++ rest3) := by
      rw [hrest, List.take_append_drop]
    have ha : isPySpace a = false := by
      have hmem : a ∈ ((cs.drop i).takeWhile fun c => !isPySpace c) := by
        rw [hruneq, hua]
        simp
      have h2 := List.mem_takeWhile_imp hmem
      simpa using h2
    have hb : isPySpace b = false := by
      have hmem : b ∈ ((cs.drop i).takeWhile fun c => !isPySpace c) := by
        rw [hruneq]
        simp
      have h2 := List.mem_takeWhile_imp hmem
      simpa using h2
    refine ⟨cs.take i ++ u, a, b, suf ++ rest3, ?_, ha, hb⟩
    conv_lhs => rw [hcs, hruneq, hua]
    simp
  · rw [if_neg hq] at hk2
    cases hk2

/-! ## No bad window survives either substitution pass -/

theorem emailScan_not_bad : ∀ cs, ¬ BadAt (reSub emailMatch emailRep cs) := by
  suffices H : ∀ (n : Nat) (cs : List Char), cs.length ≤ n →
      ¬ BadAt (reSub emailMatch emailRep cs) from fun cs => H cs.length cs le_rfl
  intro n
  induction n with
  | zero =>
    intro cs h
    have hnil : cs = [] := List.length_eq_zero.mp (Nat.le_zero.mp h)
    subst hnil
    rw [reSub_nil]
    exact badAt_nil
  | succ n ih =>
    intro cs hlen
    have hrep : emailRep = '[' :: "EMAIL_MASKED]".data := rfl
    cases cs with
    | nil =>
      rw [reSub_nil]
      exact badAt_nil
    | cons c rest =>
      have hlen2 : rest.length ≤ n := by
        simp only [List.length_cons] at hlen
        omega
      cases hm : emailMatch (c :: rest) with
      | none =>
        rw [reSub_cons_none _ _ _ _ hm]
        intro hbad
        rcases (badAt_cons _ _).mp hbad with ⟨b, v, heq, hx, hbns⟩ | hb2
        · rw [hrep] at heq
          rcases reSub_cons_elim emailMatch '[' "EMAIL_MASKED]".data rest '@' (b :: v) heq with
            ⟨t, hrt, hmrest, hys⟩ | ⟨k, hmk, habs⟩
          · rcases reSub_cons_elim emailMatch '[' "EMAIL_MASKED]".data t b v hys.symm with
              ⟨t2, ht2, hmt, hys2⟩ | ⟨k2, hmt2, hbq⟩
            · rw [hrt, ht2] at hm
              exact emailMatch_window c b t2 hx hbns hm
            · obtain ⟨h0, t0, ht0, hns0, h3⟩ := emailMatch_some_head t k2 hmt2
              rw [hrt, ht0] at hm
              exact emailMatch_window c h0 t0 hx hns0 hm
          · exact absurd habs (by decide)
        · exact ih rest hlen2 hb2
      | some k =>
        rw [reSub_cons_some _ _ _ _ _ hm]
        intro hbad
        have hlend : ((c :: rest).drop (max k 1)).length ≤ n := by
          rw [List.length_drop]
          simp only [List.length_cons] at hlen ⊢
          omega
        rcases badAt_append_cases emailRep _ hbad with h1 | h2 | h3 | h4
        · refine absurd (badAt_mem _ h1) ?_
          rw [hrep]
          decide
        · exact ih _ hlend h2
        · obtain ⟨u, a, hu, ha, b, v, hXeq, hbns⟩ := h3
          have hdw := emailMatch_some_k (c :: rest) k hm
          rw [hrep] at hXeq
          rcases reSub_cons_elim emailMatch '[' "EMAIL_MASKED]".data _ '@' (b :: v) hXeq with
            ⟨t, hdt, hmdrop, hysd⟩ | ⟨k2, hmk2, habs⟩
          · rw [hdw] at hdt
            have hhead := dropWhile_head_not _ _ _ _ hdt
            exact absurd hhead (by decide)
          · exact absurd habs (by decide)
        · obtain ⟨u, a, hu, ha, hrest4⟩ := h4
          have hat : '@' ∈ emailRep := by
            rw [hu]
            simp
          rw [hrep] at hat
          exact absurd hat (by decide)

theorem phoneScan_not_bad : ∀ cs, ¬ BadAt cs → ¬ BadAt (reSub phoneMatch phoneRep cs) := by
  suffices H : ∀ (n : Nat) (cs : List Char), cs.length ≤ n → ¬ BadAt cs →
      ¬ BadAt (reSub phoneMatch phoneRep cs) from fun cs => H cs.length cs le_rfl
  intro n
  induction n with
  | zero =>
    intro cs h hnb
    have hnil : cs = [] := List.length_eq_zero.mp (Nat.le_zero.mp h)
    subst hnil
    rw [reSub_nil]
    exact badAt_nil
  | succ n ih =>
    intro cs hlen hnb
    have hrep : phoneRep = '[' :: "PHONE_MASKED]".data := rfl
    cases cs with
    | nil =>
      rw [reSub_nil]
      exact badAt_nil
    | cons c rest =>
      have hlen2 : rest.length ≤ n := by
        simp only [List.length_cons] at hlen
        omega
      cases hm : phoneMatch (c :: rest) with
      | none =>
        rw [reSub_cons_none _ _ _ _ hm]
        intro hbad
        rcases (badAt_cons _ _).mp hbad with ⟨b, v, heq, hx, hbns⟩ | hb2
        · rw [hrep] at heq
          rcases reSub_cons_elim phoneMatch '[' "PHONE_MASKED]".data rest '@' (b :: v) heq with
            ⟨t, hrt, hmrest, hys⟩ | ⟨k, hmk, habs⟩
          · rcases reSub_cons_elim phoneMatch '[' "PHONE_MASKED]".data t b v hys.symm with
              ⟨t2, ht2, hmt, hys2⟩ | ⟨k2, hmt2, hbq⟩
            · apply hnb
              refine ⟨[], c, b, t2, ?_, hx, hbns⟩
              rw [hrt, ht2]
              rfl
            · obtain ⟨h0, t0, ht0, hns0⟩ := phoneMatch_some_head t k2 hmt2
              apply hnb
              refine ⟨[], c, h0, t0, ?_, hx, hns0⟩
              rw [hrt, ht0]
              rfl
          · exact absurd habs (by decide)
        · exact ih rest hlen2 (not_badAt_cons _ _ hnb) hb2
      | some k =>
        rw [reSub_cons_some _ _ _ _ _ hm]
        intro hbad
        obtain ⟨pre, suf, hcssplit, hplen, hword⟩ := phoneMatch_some_decomp _ k hm
        have hk10 : 10 ≤ k := by
          obtain ⟨p, d, mid, e, hpd, hp, hd, he, hall, h8, h12⟩ := hword
          rw [hpd] at hplen
          rcases hp with rfl | rfl <;> simp [List.length_append] at hplen <;> omega
        have hdropped : (c :: rest).drop (max k 1) = suf := by
          rw [Nat.max_eq_left (by omega), hcssplit, ← hplen, List.drop_left]
        have hlend : ((c :: rest).drop (max k 1)).length ≤ n := by
          rw [List.length_drop]
          simp only [List.length_cons] at hlen ⊢
          omega
        have hnbsuf : ¬ BadAt suf := by
          intro hb
          apply hnb
          rw [hcssplit]
          exact badAt_append_right pre suf hb
        rcases badAt_append_cases phoneRep _ hbad with h1 | h2 | h3 | h4
        · refine absurd (badAt_mem _ h1) ?_
          rw [hrep]
          decide
        · refine ih _ hlend ?_ h2
          rw [hdropped]
          exact hnbsuf
        · obtain ⟨u, a, hu, ha, b, v, hXeq, hbns⟩ := h3
          rw [hdropped, hrep] at hXeq
          rcases reSub_cons_elim phoneMatch '[' "PHONE_MASKED]".data suf '@' (b :: v) hXeq with
            ⟨t, hst, hms, hys⟩ | ⟨k2, hmk2, habs⟩
          · rcases reSub_cons_elim phoneMatch '[' "PHONE_MASKED]".data t b v hys.symm with
              ⟨t2, ht2, hmt, hys2⟩ | ⟨k2, hmt2, hbq⟩
            · apply hnb
              obtain ⟨p, d, mid, e, hpd, hp, hd, he, hall, h8, h12⟩ := hword
              rw [hcssplit, hst, ht2, hpd]
              refine ⟨p ++ d :: mid, e, b, t2, ?_, isPySpace_false_of_isDigit he, hbns⟩
              simp
            · obtain ⟨h0, t0, ht0, hns0⟩ := phoneMatch_some_head t k2 hmt2
              apply hnb
              obtain ⟨p, d, mid, e, hpd, hp, hd, he, hall, h8, h12⟩ := hword
              rw [hcssplit, hst, ht0, hpd]
              refine ⟨p ++ d :: mid, e, h0, t0, ?_, isPySpace_false_of_isDigit he, hns0⟩
              simp
          · exact absurd habs (by decide)
        · obtain ⟨u, a, hu, ha, hrest4⟩ := h4
          have hat : '@' ∈ phoneRep := by
            rw [hu]
            simp
          rw [hrep] at hat
          exact absurd hat (by decide)

/-! ## The email pass acts on whole whitespace-delimited tokens -/

theorem emailTokenAux_nil : ∀ f, emailTokenAux f [] = [] := by
  intro f
  cases f <;> rfl

theorem emailTokenAux_succ_cons (fuel : Nat) (c : Char) (rest : List Char) :
    emailTokenAux (fuel + 1) (c :: rest) =
      if isPySpace c then c :: emailTokenAux fuel rest
      else
        (if '@' ∈ (((c :: rest).takeWhile fun x => !isPySpace x).drop 1).dropLast
          then emailRep
          else (c :: rest).takeWhile fun x => !isPySpace x) ++
          emailTokenAux fuel ((c :: rest).dropWhile fun x => !isPySpace x) := rfl

theorem dropWhile_length_le (p : Char → Bool) (l : List Char) :
    (l.dropWhile p).length ≤ l.length := by
  rw [dropWhile_eq_drop_len p l, List.length_drop]
  omega

theorem emailTokenAux_fuel_eq :
    ∀ (f g : Nat) (cs : List Char), cs.length ≤ f → cs.length ≤ g →
      emailTokenAux f cs = emailTokenAux g cs := by
  intro f
  induction f with
  | zero =>
    intro g cs hf hg
    have hnil : cs = [] := List.length_eq_zero.mp (Nat.le_zero.mp hf)
    subst hnil
    rw [emailTokenAux_nil, emailTokenAux_nil]
  | succ f ih =>
    intro g cs hf hg
    cases cs with
    | nil => rw [emailTokenAux_nil, emailTokenAux_nil]
    | cons c rest =>
      cases g with
      | zero => simp at hg
      | succ g =>
        rw [emailTokenAux_succ_cons, emailTokenAux_succ_cons]
        have hrf : rest.length ≤ f := by
          simp only [List.length_cons] at hf
          omega
        have hrg : rest.length ≤ g := by
          simp only [List.length_cons] at hg
          omega
        by_cases hc : isPySpace c = true
        · rw [if_pos hc, if_pos hc, ih g rest hrf hrg]
        · rw [if_neg hc, if_neg hc]
          have hd : ((c :: rest).dropWhile fun x => !isPySpace x).length ≤ rest.length := by
            rw [List.dropWhile_cons_of_pos (by simpa using hc)]
            exact dropWhile_length_le _ rest
          rw [ih g _ (le_trans hd hrf) (le_trans hd hrg)]

theorem mem_dropLast_tail {x a : Char} {t : List Char} (h : x ∈ t.dropLast) :
    x ∈ (a :: t).dropLast := by
  cases t with
  | nil => simp at h
  | cons b t2 =>
    rw [List.dropLast_cons₂]
    exact List.mem_cons_of_mem a h

theorem reSub_email_skip :
    ∀ (run rest2 : List Char), (∀ x ∈ run, isPySpace x = false) →
      (∀ r t, rest2 = r :: t → isPySpace r = true) →
      '@' ∉ (run.drop 1).dropLast →
      reSub emailMatch emailRep (run ++ rest2) = run ++ reSub emailMatch emailRep rest2 := by
  intro run
  induction run with
  | nil =>
    intro rest2 _ _ _
    simp
  | cons c rn ih =>
    intro rest2 hns hhead hat
    have htw : ((c :: rn) ++ rest2).takeWhile (fun x => !isPySpace x) = c :: rn := by
      rw [takeWhile_append_all (c :: rn) rest2 (by intro x hx; simp [hns x hx])]
      cases h2 : rest2 with
      | nil => simp
      | cons r t =>
        rw [List.takeWhile_cons_of_neg (by simp [hhead r t h2])]
        simp
    have hm : emailMatch ((c :: rn) ++ rest2) = none := by
      rw [emailMatch_eq, htw, if_neg]
      exact hat
    have hat1 : '@' ∉ rn.dropLast := hat
    have hat2 : '@' ∉ (rn.drop 1).dropLast := by
      cases rn with
      | nil => simp
      | cons a t =>
        intro hmem
        exact hat1 (mem_dropLast_tail hmem)
    have hm2 : emailMatch (c :: (rn ++ rest2)) = none := hm
    rw [List.cons_append, reSub_cons_none _ _ _ _ hm2,
      ih rest2 (fun x hx => hns x (List.mem_cons_of_mem c hx)) hhead hat2,
      List.cons_append]

/-- The anchored email scanner and the whole-token masker coincide: the
email substitution pass replaces exactly the maximal non-whitespace runs
that contain an interior `@`. -/
theorem email_token_equiv : ∀ cs, reSub emailMatch emailRep cs = emailTokenMask cs := by
  suffices H : ∀ (n : Nat) (cs : List Char), cs.length ≤ n →
      reSub emailMatch emailRep cs = emailTokenMask cs from fun cs => H cs.length cs le_rfl
  intro n
  induction n with
  | zero =>
    intro cs h
    have hnil : cs = [] := List.length_eq_zero.mp (Nat.le_zero.mp h)
    subst hnil
    rfl
  | succ n ih =>
    intro cs hlen
    cases cs with
    | nil => rfl
    | cons c rest =>
      have hlen2 : rest.length ≤ n := by
        simp only [List.length_cons] at hlen
        omega
      have hmask : emailTokenMask (c :: rest) = emailTokenAux (rest.length + 1) (c :: rest) := rfl
      by_cases hc : isPySpace c = true
      · rw [reSub_cons_none _ _ _ _ (emailMatch_space_head c rest hc),
          hmask, emailTokenAux_succ_cons, if_pos hc, ih rest hlen2]
        rfl
      · have hdw : (c :: rest).dropWhile (fun x => !isPySpace x) =
            rest.dropWhile (fun x => !isPySpace x) :=
          List.dropWhile_cons_of_pos (by simpa using hc)
        have hdlen : ((c :: rest).dropWhile fun x => !isPySpace x).length ≤ n := by
          rw [hdw]
          exact le_trans (dropWhile_length_le _ rest) hlen2
        have hfuel : emailTokenMask ((c :: rest).dropWhile fun x => !isPySpace x) =
            emailTokenAux rest.length ((c :: rest).dropWhile fun x => !isPySpace x) :=
          emailTokenAux_fuel_eq _ _ _ le_rfl
            (by rw [hdw]; exact dropWhile_length_le _ rest)
        by_cases hat : '@' ∈ (((c :: rest).takeWhile fun x => !isPySpace x).drop 1).dropLast
        · have hm : emailMatch (c :: rest) =
              some ((c :: rest).takeWhile fun x => !isPySpace x).length := by
            rw [emailMatch_eq, if_pos hat]
          have hmax : max ((c :: rest).takeWhile fun x => !isPySpace x).length 1 =
              ((c :: rest).takeWhile fun x => !isPySpace x).length := by
            apply Nat.max_eq_left
            rw [List.takeWhile_cons_of_pos (by simpa using hc)]
            simp
          have hdrop : (c :: rest).drop ((c :: rest).takeWhile fun x => !isPySpace x).length =
              (c :: rest).dropWhile fun x => !isPySpace x :=
            (dropWhile_eq_drop_len _ _).symm
          rw [reSub_cons_some _ _ _ _ _ hm, hmax, hdrop, ih _ hdlen, hfuel,
            hmask, emailTokenAux_succ_cons, if_neg hc, if_pos hat]
        · have hns : ∀ x ∈ (c :: rest).takeWhile fun x => !isPySpace x,
              isPySpace x = false := by
            intro x hx
            have hx2 := List.mem_takeWhile_imp hx
            simpa using hx2
          have hhead : ∀ r t, ((c :: rest).dropWhile fun x => !isPySpace x) = r :: t →
              isPySpace r = true := by
            intro r t h
            have hr := dropWhile_head_not _ _ _ _ h
            simpa using hr
          have hsplit : c :: rest = ((c :: rest).takeWhile fun x => !isPySpace x) ++
              ((c :: rest).dropWhile fun x => !isPySpace x) :=
            (List.takeWhile_append_dropWhile _ _).symm
          calc reSub emailMatch emailRep (c :: rest)
              = reSub emailMatch emailRep (((c :: rest).takeWhile fun x => !isPySpace x) ++
                  ((c :: rest).dropWhile fun x => !isPySpace x)) := by
                conv_lhs => rw [hsplit]
            _ = ((c :: rest).takeWhile fun x => !isPySpace x) ++
                  reSub emailMatch emailRep ((c :: rest).dropWhile fun x => !isPySpace x) :=
                reSub_email_skip _ _ hns hhead hat
            _ = ((c :: rest).takeWhile fun x => !isPySpace x) ++
                  emailTokenMask ((c :: rest).dropWhile fun x => !isPySpace x) := by
                rw [ih _ hdlen]
            _ = emailTokenMask (c :: rest) := by
                rw [hfuel, hmask, emailTokenAux_succ_cons, if_neg hc, if_neg hat]

/-- C9 counterexample: `mask_pii` does not realise the claimed token
description of the phone pattern.  A bare run of 9 digits satisfies the
claimed shape (optional `+`, 9-13 digits with optional separators) yet
the code's regex `\+?\d[\d -]{8,12}\d`, which needs 10 to 14 characters,
leaves it unchanged; conversely a digit, eight spaces and a digit -- only
two digits in total -- is masked by the code but not by the claimed
shape. -/
theorem mask_pii_not_whole_token_spec :
    mask_pii "123456789" = "123456789" ∧
    spec_mask_pii "123456789" = "[PHONE_MASKED]" ∧
    mask_pii "1        2" = "[PHONE_MASKED]" ∧
    spec_mask_pii "1        2" = "1        2" ∧
    mask_pii "123456789" ≠ spec_mask_pii "123456789" :=
  ⟨by decide, by decide, by decide, by decide, by decide⟩

/-- C9 (amended): the email substitution replaces exactly the maximal
whitespace-delimited tokens with an interior `@` by the email
placeholder (proved in general via the token masker), while the phone
substitution works on substrings, not tokens, and matches a digit,
8 to 12 characters drawn from digits, spaces and hyphens, and a digit,
optionally preceded by `+` -- 10 to 14 pattern characters in all, with no
lower bound of 9 on the number of digits: 9 bare digits survive, 10 are
masked, a match inside a longer word is replaced in place, a 15-digit
run is masked only up to the 14-character maximum, and two digits
separated by eight spaces are masked. -/
theorem mask_pii_token_description :
    (∀ cs, reSub emailMatch emailRep cs = emailTokenMask cs) ∧
    mask_pii "123456789" = "123456789" ∧
    mask_pii "1234567890" = "[PHONE_MASKED]" ∧
    mask_pii "abc1234567890xyz" = "abc[PHONE_MASKED]xyz" ∧
    mask_pii "123456789012345" = "[PHONE_MASKED]5" ∧
    mask_pii "1        2" = "[PHONE_MASKED]" ∧
    mask_pii "x a@b y" = "x [EMAIL_MASKED] y" :=
  ⟨email_token_equiv, by decide, by decide, by decide, by decide, by decide, by decide⟩

/-- C10: `mask_pii` is idempotent.  After the two passes no
non-whitespace run has an interior `@` left (placeholders contain no
`@`, and a surviving `@` keeps a whitespace neighbour on the side that
made the email pattern fail, because a phone match neither contains an
`@` nor ends in the space right before one), so the email pass of the
second application is the identity; and the phone pass leaves no phone
match anywhere in its output (its replacement contains no phone-pattern
characters and everything left over was already scanned from a position
where matching failed), so the phone pass of the second application is
the identity as well. -/
theorem mask_pii_idempotent (s : String) : mask_pii (mask_pii s) = mask_pii s := by
  unfold mask_pii
  have hdata : (⟨reSub phoneMatch phoneRep (reSub emailMatch emailRep s.data)⟩ : String).data =
      reSub phoneMatch phoneRep (reSub emailMatch emailRep s.data) := rfl
  rw [hdata]
  have hnb : ¬ BadAt (reSub phoneMatch phoneRep (reSub emailMatch emailRep s.data)) :=
    phoneScan_not_bad _ (emailScan_not_bad s.data)
  have h1 : reSub emailMatch emailRep
      (reSub phoneMatch phoneRep (reSub emailMatch emailRep s.data)) =
      reSub phoneMatch phoneRep (reSub emailMatch emailRep s.data) := by
    apply reSub_eq_self
    intro i
    by_contra hne
    exact hnb (badAt_of_emailMatch_drop _ i hne)
  rw [h1]
  have h2 : reSub phoneMatch phoneRep
      (reSub phoneMatch phoneRep (reSub emailMatch emailRep s.data)) =
      reSub phoneMatch phoneRep (reSub emailMatch emailRep s.data) := by
    apply reSub_eq_self
    intro i
    exact phone_out_clean _ i
  rw [h2]

end AIResumeScreener
